import Mathlib

/-!
Shallow embedding of the `hatch-locked-deps` lock-file parsers
(`src/hatch_locked_deps/parsers/`), together with theorems about the
dependency-graph walker of the uv.lock parser, the pinned-requirements
parser and the pylock parser.

Conventions of the embedding:
* TOML and file reading are external collaborators: each parser takes the
  already-decoded structure (a list of package tables, or the list of text
  lines) instead of a `Path`.
* Python exceptions (`ValueError`) are modelled with `Except String`.
* Python dictionaries keyed by name are modelled by lists searched in
  insertion order, which preserves first-match and catalog-order semantics.
* Python string truthiness (`if marker:`, `if extra and resolution_marker:`)
  is modelled explicitly: an empty string is falsy.
-/

/-- A single pinned dependency record (`dep.py`, `@dataclass Dependency`). -/
structure Dependency where
  name : String
  version : String
  markers : Option String := none
deriving DecidableEq, Repr

/-- One `[[package]]` table of a uv.lock artifact, with the fields read by
`uv.py`. `sourceRegistry` is the value of `source.registry` when that key is
present (a git / path / editable source, or an absent source table, is
`none`). `dependencies` holds the `name` fields of the direct-dependency
references. `devDependencies` is the development-dependency group of the
root; the parser never reads it, which is exactly what the claims about it
state. `optionalDependencies` is the `optional-dependencies` mapping of the
root from extra name to direct-dependency names. -/
structure UvPackage where
  name : String
  version : String
  sourceRegistry : Option String := none
  resolutionMarker : Option String := none
  dependencies : List String := []
  devDependencies : List String := []
  optionalDependencies : List (String × List String) := []
deriving DecidableEq, Repr

/-- The name-to-entries catalog index built by `parse_uv_lock` with
`pkg_index.setdefault(pkg["name"], []).append(pkg)`: the entries under one
name, in catalog order. -/
def pkgIndex (pkgs : List UvPackage) (n : String) : List UvPackage :=
  pkgs.filter (fun p => p.name == n)

/-- The truthiness test `entry.get("source", {}).get("registry")` of
`collect_deps`: a present, non-empty registry value. -/
def isRegistry (p : UvPackage) : Bool :=
  match p.sourceRegistry with
  | some s => s != ""
  | none => false

/-- The literal marker fragment `extra == "<e>"`. -/
def extraClause (e : String) : String :=
  "extra == \"" ++ e ++ "\""

/-- The marker synthesis of `collect_deps` (uv.py lines 100-107), with
Python truthiness: an empty-string extra or resolution-marker is falsy and
takes the same branch as an absent one. -/
def mkMarkers : Option String → Option String → Option String
  | some e, some m =>
    if e ≠ "" then
      if m ≠ "" then some (extraClause e ++ " and " ++ m) else some (extraClause e)
    else if m ≠ "" then some m
    else none
  | some e, none => if e ≠ "" then some (extraClause e) else none
  | none, some m => if m ≠ "" then some m else none
  | none, none => none

/-- The error message of `find_root`. -/
def rootNotFoundMsg (projectName : String) : String :=
  "Root package '" ++ projectName ++ "' not found in uv.lock"

/-- The root lookup of `find_root` (first catalog entry whose name equals the
project name); the `ValueError` branch is reported by `parse_uv_lock`. -/
def find_root (pkgs : List UvPackage) (projectName : String) : Option UvPackage :=
  pkgs.find? (fun p => p.name == projectName)

/-- The number of direct-dependency references carried by catalog entries
whose name is not yet visited: the termination measure component of the
worklist loop of `walk_deps`. -/
def remDeps (pkgs : List UvPackage) (visited : List String) : Nat :=
  ((pkgs.filter (fun p => decide (p.name ∉ visited))).map
    (fun p => p.dependencies.length)).sum

/-- One worklist loop of `walk_deps` (uv.py lines 70-80), fuel-indexed so the
definition is structural. The list head plays the role of the working end of
the Python queue (`queue.pop()` / `queue.append` act at the tail there); the
computed visited set does not depend on that choice. A popped name is first
added to `visited`, then the direct dependencies of every catalog entry
under it that are not yet visited are enqueued — also when the name has no
catalog entry at all, in which case nothing is enqueued. -/
def walkAux (pkgs : List UvPackage) : Nat → List String → List String → List String
  | 0, visited, _ => visited
  | _ + 1, visited, [] => visited
  | fuel + 1, visited, n :: queue =>
    if n ∈ visited then walkAux pkgs fuel visited queue
    else
      walkAux pkgs fuel (n :: visited)
        ((((pkgIndex pkgs n).flatMap (fun p => p.dependencies)).filter
          (fun d => decide (d ∉ n :: visited))) ++ queue)

/-- Fuel sufficient for `walkAux` to drain its queue: the seeds plus every
direct-dependency reference of the catalog (each loop iteration pops one
queue element, and a name is expanded at most once). -/
def walkFuel (pkgs : List UvPackage) (seeds : List String) : Nat :=
  seeds.length + remDeps pkgs []

/-- The reachability traversal `walk_deps` (uv.py lines 65-82): the set of
names transitively reachable from the seed names, returned as a
duplicate-free list. The Python seeds are a set; a duplicated seed name is
skipped by the visited-set guard, so seed order and multiplicity do not
affect the result. -/
def walk_deps (pkgs : List UvPackage) (seeds : List String) : List String :=
  walkAux pkgs (walkFuel pkgs seeds) [] seeds

/-- The per-entry emission step of `collect_deps`: a non-registry entry is
skipped, a registry entry becomes a record with the synthesized marker. -/
def emitEntry (extra : Option String) (entry : UvPackage) : Option Dependency :=
  if isRegistry entry then
    some ⟨entry.name, entry.version, mkMarkers extra entry.resolutionMarker⟩
  else none

/-- A computable decision procedure for the lexicographic order on strings
(the library one is stated through `String.ltb`, which does not reduce
inside the kernel; this one reduces, so concrete runs can be checked by
`decide` and `rfl`). -/
instance decStrLe (a b : String) : Decidable (a ≤ b) :=
  decidable_of_iff (¬ b.toList < a.toList) (not_congr String.lt_iff_toList_lt).symm

/-- Python `sorted` on a set of names: the lexicographically sorted listing.
On a duplicate-free list (every name set handed to `collect_deps` is one),
any comparison sort produces the same unique sorted arrangement. -/
def sortNames (names : List String) : List String :=
  List.insertionSort (· ≤ ·) names

/-- The record construction `collect_deps` (uv.py lines 85-116): names in
sorted order, and for each name its catalog entries in catalog order, each
registry-sourced entry yielding one record. -/
def collect_deps (names : List String) (pkgs : List UvPackage)
    (extra : Option String) : List Dependency :=
  (sortNames names).flatMap (fun n => (pkgIndex pkgs n).filterMap (emitEntry extra))

/-- The lookup `opt_deps.get(extra, [])` on the root's
`optional-dependencies` mapping. -/
def lookupGroup (groups : List (String × List String)) (extra : String) : List String :=
  match groups.find? (fun g => g.1 == extra) with
  | some g => g.2
  | none => []

/-- The graph-format parser `parse_uv_lock` (uv.py lines 13-53). The main
seeds are the names of the root's `dependencies`; each requested extra is
traversed independently from the names of its group, and only the names not
already reachable from main are emitted under the extra. `include_extras =
None` and `[]` behave alike (the Python `if include_extras:` guard), so a
single list parameter suffices. -/
def parse_uv_lock (pkgs : List UvPackage) (projectName : String)
    (includeExtras : List String) : Except String (List Dependency) :=
  match find_root pkgs projectName with
  | none => .error (rootNotFoundMsg projectName)
  | some root =>
    let reachableMain := walk_deps pkgs root.dependencies
    let mainDeps := collect_deps reachableMain pkgs none
    let extraDeps := includeExtras.flatMap (fun e =>
      let reachableExtra := walk_deps pkgs (lookupGroup root.optionalDependencies e)
      collect_deps (reachableExtra.filter (fun n => decide (n ∉ reachableMain)))
        pkgs (some e))
    .ok (mainDeps ++ extraDeps)

/-- One direct-dependency edge of the graph: some catalog entry under `a`
references `b`. -/
def depEdge (pkgs : List UvPackage) (a b : String) : Prop :=
  ∃ p ∈ pkgIndex pkgs a, b ∈ p.dependencies

/-- Transitive reachability from a seed set along direct-dependency edges
(the specification notion the walker is measured against). -/
def Reachable (pkgs : List UvPackage) (seeds : List String) (n : String) : Prop :=
  ∃ s ∈ seeds, Relation.ReflTransGen (depEdge pkgs) s n

/-! ### The pinned-requirements parser (`requirements.py`) -/

/-- Whitespace as Python `str.strip` and the regex class `\s` see it
(the ASCII cases; exotic Unicode whitespace does not occur in
requirements text). -/
def isPyWs (c : Char) : Bool :=
  c == ' ' || c == '\t' || c == '\n' || c == '\r' || c == '\x0b' || c == '\x0c'

/-- Python `str.strip()`: drop whitespace from both ends. -/
def pyStrip (l : List Char) : List Char :=
  ((l.dropWhile isPyWs).reverse.dropWhile isPyWs).reverse

/-- The literal hash-fragment marker of the substitution regex. -/
def hashLit : List Char := "--hash=".data

/-- One textual hash fragment as the constructed-line family writes it:
a space, then `--hash=`, then the token. -/
def hashFrag (tok : List Char) : List Char := ' ' :: (hashLit ++ tok)

/-- A match of `\s*--hash=\S+` anchored at the start of `l`, returning the
remainder after the match. The regex is deterministic here: `\s*` must end
exactly where the literal `--hash=` starts, and the greedy `\S+` is the
maximal non-whitespace run. -/
def matchHashAt (l : List Char) : Option (List Char) :=
  let r1 := l.dropWhile isPyWs
  if r1.take 7 = hashLit then
    let r2 := r1.drop 7
    let tok := r2.takeWhile (fun c => !isPyWs c)
    if tok.isEmpty then none else some (r2.drop tok.length)
  else none

/-- The scan of `re.sub(r"\s*--hash=\S+", "", s)`: leftmost non-overlapping
matches are deleted, other characters are kept. Fuel-indexed so the
definition is structural; a match consumes at least one character, so fuel
equal to the length of the input suffices. -/
def subHashAux : Nat → List Char → List Char
  | 0, l => l
  | _ + 1, [] => []
  | fuel + 1, c :: cs =>
    match matchHashAt (c :: cs) with
    | some rest => subHashAux fuel rest
    | none => c :: subHashAux fuel cs

/-- The hash-fragment removal `re.sub(r"\s*--hash=\S+", "", s)`. -/
def subHash (l : List Char) : List Char := subHashAux l.length l

/-- Python `str.split("==")`: pieces between leftmost non-overlapping
occurrences of `==`. -/
def splitEqEqAux : List Char → List Char → List (List Char)
  | acc, [] => [acc.reverse]
  | acc, [c] => [(c :: acc).reverse]
  | acc, c :: c2 :: rest =>
    if c = '=' ∧ c2 = '=' then acc.reverse :: splitEqEqAux [] rest
    else splitEqEqAux (c :: acc) (c2 :: rest)

/-- Python `name_version.split("==")`. -/
def splitEqEq (l : List Char) : List (List Char) := splitEqEqAux [] l

/-- The regex class `[a-zA-Z0-9_.-]` of the name part. -/
def nameClassChar (c : Char) : Bool :=
  c.isAlpha || c.isDigit || c == '_' || c == '.' || c == '-'

/-- The regex class `[a-zA-Z0-9_,.-]` of the bracketed extras part. -/
def bracketClassChar (c : Char) : Bool :=
  c.isAlpha || c.isDigit || c == '_' || c == ',' || c == '.' || c == '-'

/-- Whether the rest of the line matches `(\s*;.*)?$`: either nothing is
left (the optional marker group is absent), or after optional whitespace a
semicolon starts the marker group, which then runs to the end of the line
(lines hold no newline, so `.*` reaches `$`). -/
def tailOk (t : List Char) : Bool :=
  t.isEmpty || (t.dropWhile isPyWs).head? == some ';'

/-- The lazy `\S+?` of the version part followed by `(\s*;.*)?$`: the
version grows one non-whitespace character at a time and stops at the first
point where the rest of the line is a valid (possibly absent) marker tail.
Returns the version and the tail. -/
def lazyVerAux : List Char → List Char → Option (List Char × List Char)
  | ver, [] => some (ver, [])
  | ver, c :: cs =>
    if tailOk (c :: cs) then some (ver, c :: cs)
    else if isPyWs c then none
    else lazyVerAux (ver ++ [c]) cs

/-- Match `\S+?(\s*;.*)?$` on the text after `==`: at least one version
character is required before the tail is first tested. -/
def matchVerMarker : List Char → Option (List Char × List Char)
  | [] => none
  | c :: cs => if isPyWs c then none else lazyVerAux [c] cs

/-- Match `==\S+?(\s*;.*)?$` after the (possibly bracketed) name, returning
the full group-1 text `name[extras]==version` and the group-2 marker tail
(`none` when the optional group is absent). -/
def reqMatchAfterName (nameBr rest : List Char) :
    Option (List Char × Option (List Char)) :=
  match rest with
  | c1 :: c2 :: rest2 =>
    if c1 = '=' ∧ c2 = '=' then
      match matchVerMarker rest2 with
      | some (ver, tail) =>
        some (nameBr ++ c1 :: c2 :: ver, if tail.isEmpty then none else some tail)
      | none => none
    else none
  | _ => none

/-- The anchored match of
`^([a-zA-Z0-9_.-]+(?:\[[a-zA-Z0-9_,.-]+\])?==\S+?)(\s*;.*)?$`
(requirements.py lines 25-28). Greedy character-class runs are maximal and
deterministic: no class contains the character that must follow it. -/
def reqMatchTail (name rest : List Char) :
    Option (List Char × Option (List Char)) :=
  match rest with
  | c :: r =>
    if c = '[' then
      let inner := r.takeWhile bracketClassChar
      if inner.isEmpty then none
      else
        match r.drop inner.length with
        | c2 :: rest2 =>
          if c2 = ']' then reqMatchAfterName (name ++ c :: (inner ++ [c2])) rest2
          else none
        | [] => none
    else reqMatchAfterName name (c :: r)
  | [] => reqMatchAfterName name []

def reqMatch (cleaned : List Char) : Option (List Char × Option (List Char)) :=
  let name := cleaned.takeWhile nameClassChar
  if name.isEmpty then none
  else reqMatchTail name (cleaned.drop name.length)

/-- The parse error message for a line that fails the shape match. -/
def invalidLineMsg (cleaned : List Char) : String :=
  "Invalid requirements.txt line: " ++ String.mk cleaned

/-- The `ValueError` Python raises when `name_version.split("==")` yields
more than the two expected pieces (a version containing `==`). -/
def unpackErrMsg : String := "too many values to unpack (expected 2)"

/-- The comment strip, continuation strip and whitespace strip
`raw_line.split("#")[0].split("\\")[0].strip()`. -/
def cleanupLine (raw : List Char) : List Char :=
  pyStrip ((raw.takeWhile (fun c => c != '#')).takeWhile (fun c => c != '\\'))

/-- The marker post-processing
`match[2].strip().lstrip("; ").strip() if match[2] else None`. An empty
result stays an empty-string marker, as in Python. -/
def processMarkers (g2 : Option (List Char)) : Option String :=
  match g2 with
  | none => none
  | some t =>
    some (String.mk (pyStrip ((pyStrip t).dropWhile (fun c => c == ';' || c == ' '))))

/-- The destructuring `name, version = name_version.split("==")`: exactly
two pieces make a record, any other number raises the unpacking
`ValueError`. -/
def unpackPieces (g2 : Option (List Char)) :
    List (List Char) → Except String (Option Dependency)
  | [n, v] => .ok (some ⟨String.mk n, String.mk v, processMarkers g2⟩)
  | _ => .error unpackErrMsg

/-- One line of `parse_requirements_txt` (requirements.py lines 19-35):
`ok none` for a skipped line, `ok (some d)` for a record, `error` for a
failed shape match or a failed destructuring of `name_version`. -/
def parseReqLine (raw : List Char) : Except String (Option Dependency) :=
  let stripped := cleanupLine raw
  if stripped.isEmpty || stripped.head? == some '-' then .ok none
  else
    let cleaned := pyStrip (subHash stripped)
    match reqMatch cleaned with
    | none => .error (invalidLineMsg cleaned)
    | some (g1, g2) => unpackPieces g2 (splitEqEq g1)

/-- The pinned-requirements parser `parse_requirements_txt` over the list of
text lines (`path.read_text().splitlines()` is the external reading step).
The first raised error aborts the whole parse. -/
def parse_requirements_txt : List String → Except String (List Dependency)
  | [] => .ok []
  | l :: ls =>
    match parseReqLine l.data with
    | .error e => .error e
    | .ok none => parse_requirements_txt ls
    | .ok (some d) =>
      match parse_requirements_txt ls with
      | .error e => .error e
      | .ok ds => .ok (d :: ds)

/-! ### The pylock parser (`pylock.py`) -/

/-- One `[[packages]]` table of a pylock.toml artifact. -/
structure PylockPackage where
  name : String
  version : String
  marker : Option String := none
deriving DecidableEq, Repr

/-- A match of `_EXTRA_MARKER_RE` (`extra\s*==\s*["']([^"']+)["']`) anchored
at the start of `l`, returning the captured extra name. The pattern is
deterministic: each greedy piece is a maximal run not containing the
character that must follow it. -/
def matchExtraAt (l : List Char) : Option String :=
  if l.take 5 = "extra".data then
    match (l.drop 5).dropWhile isPyWs with
    | '=' :: '=' :: r2 =>
      match r2.dropWhile isPyWs with
      | q :: r4 =>
        if q == '"' || q == '\'' then
          let run := r4.takeWhile (fun c => !(c == '"' || c == '\''))
          if run.isEmpty then none
          else
            match r4.drop run.length with
            | _ :: _ => some (String.mk run)
            | [] => none
        else none
      | [] => none
    | _ => none
  else none

/-- `_EXTRA_MARKER_RE.search(marker)`: the leftmost match wins. -/
def searchExtra : List Char → Option String
  | [] => none
  | c :: cs =>
    match matchExtraAt (c :: cs) with
    | some g => some g
    | none => searchExtra cs

/-- The per-package step of `parse_pylock_toml` (pylock.py lines 33-48):
search the marker for an extra condition (`if marker else None` makes an
absent or empty marker skip the search), drop the package when its extra was
not requested, otherwise emit it with the original marker untouched. -/
def pylockEmit (includeExtras : List String) (pkg : PylockPackage) :
    Option Dependency :=
  let extraMatch : Option String :=
    match pkg.marker with
    | some m => if m ≠ "" then searchExtra m.data else none
    | none => none
  match extraMatch with
  | some extraName =>
    if extraName ∈ includeExtras then some ⟨pkg.name, pkg.version, pkg.marker⟩
    else none
  | none => some ⟨pkg.name, pkg.version, pkg.marker⟩

/-- The simple-catalog parser `parse_pylock_toml` (pylock.py lines 19-50)
over the decoded `packages` list; `include_extras = None` and `[]` build the
same empty set. -/
def parse_pylock_toml (pkgsList : List PylockPackage)
    (includeExtras : List String) : List Dependency :=
  pkgsList.filterMap (pylockEmit includeExtras)

/-! ### Concrete catalogs used by the witnesses and counterexamples -/

/-- The dev-dependency example of the specification: root with main
dependency `flask` and development dependency `pytest`, no other edges. -/
def uvExampleDev : List UvPackage :=
  [⟨"myapp", "1.0.0", none, none, ["flask"], ["pytest"], []⟩,
   ⟨"flask", "3.0.0", some "https://pypi.org/simple", none, [], [], []⟩,
   ⟨"pytest", "8.0.0", some "https://pypi.org/simple", none, [], [], []⟩]

/-- The shared-transitive-dependency example of the specification:
main reaches `click` through `flask`, the extra `postgres` reaches `click`
through `psycopg2`. -/
def uvExampleShared : List UvPackage :=
  [⟨"myapp", "1.0.0", none, none, ["flask"], [], [("postgres", ["psycopg2"])]⟩,
   ⟨"flask", "3.0.0", some "https://pypi.org/simple", none, ["click"], [], []⟩,
   ⟨"click", "8.1.7", some "https://pypi.org/simple", none, [], [], []⟩,
   ⟨"psycopg2", "2.9.9", some "https://pypi.org/simple", none, ["click"], [], []⟩]

/-- A catalog whose only extra package carries a present but empty
`resolution-marker`. -/
def uvExampleEmptyMarker : List UvPackage :=
  [⟨"myapp", "1.0.0", none, none, [], [], [("postgres", ["pkga"])]⟩,
   ⟨"pkga", "1", some "https://pypi.org/simple", some "", [], [], []⟩]

/-- The git-source example of the test-suite: `my-lib` is a git node whose
edge to `six` must still be traversed, while only registry entries are
emitted. -/
def uvExampleGit : List UvPackage :=
  [⟨"myapp", "1.0.0", none, none, ["my-lib", "requests"], [], []⟩,
   ⟨"my-lib", "0.1.0", none, none, ["six"], [], []⟩,
   ⟨"requests", "2.31.0", some "https://pypi.org/simple", none, [], [], []⟩,
   ⟨"six", "1.16.0", some "https://pypi.org/simple", none, [], [], []⟩]

/-- A cyclic catalog: `a` and `b` reference each other. -/
def uvExampleCycle : List UvPackage :=
  [⟨"myapp", "1.0.0", none, none, ["a"], [], []⟩,
   ⟨"a", "1", some "https://pypi.org/simple", none, ["b"], [], []⟩,
   ⟨"b", "2", some "https://pypi.org/simple", none, ["a"], [], []⟩]

/-- A catalog with a dangling direct-dependency reference: `ghost` has no
catalog entry. -/
def uvExampleDangling : List UvPackage :=
  [⟨"myapp", "1.0.0", none, none, ["real"], [], []⟩,
   ⟨"real", "1.0", some "https://pypi.org/simple", none, ["ghost"], [], []⟩]

/-- A forked catalog: two entries under one name, each with its own
resolution-marker. -/
def uvExampleForked : List UvPackage :=
  [⟨"myapp", "1.0.0", none, none, ["numpy"], [], []⟩,
   ⟨"numpy", "1.26.4", some "https://pypi.org/simple",
     some "python_version < '3.12'", [], [], []⟩,
   ⟨"numpy", "2.1.0", some "https://pypi.org/simple",
     some "python_version >= '3.12'", [], [], []⟩]

/-- The root entries of the example catalogs (each is the first element of
its catalog, as `find_root` returns it). -/
def uvExampleDevRoot : UvPackage :=
  ⟨"myapp", "1.0.0", none, none, ["flask"], ["pytest"], []⟩

def uvExampleSharedRoot : UvPackage :=
  ⟨"myapp", "1.0.0", none, none, ["flask"], [], [("postgres", ["psycopg2"])]⟩

def uvExampleDanglingRoot : UvPackage :=
  ⟨"myapp", "1.0.0", none, none, ["real"], [], []⟩

/-- The pylock example of the specification and tests: one unconditional
package, one dev-extra package, one docs-extra package. -/
def pylockExample : List PylockPackage :=
  [⟨"flask", "3.0.0", none⟩,
   ⟨"pytest", "8.0.0", some "extra == 'dev'"⟩,
   ⟨"sphinx", "7.2.6", some "extra == 'docs'"⟩]

/-! ### Correctness of the worklist traversal -/

theorem remDeps_cons_pkg (p : UvPackage) (ps : List UvPackage)
    (visited : List String) :
    remDeps (p :: ps) visited =
      (if p.name ∈ visited then 0 else p.dependencies.length) + remDeps ps visited := by
  simp only [remDeps, List.filter_cons]
  by_cases hv : p.name ∈ visited
  · simp [hv]
  · simp [hv]

theorem pkgIndex_sum_cons (p : UvPackage) (ps : List UvPackage) (n : String) :
    ((pkgIndex (p :: ps) n).map (fun q => q.dependencies.length)).sum =
      (if p.name = n then p.dependencies.length else 0) +
        ((pkgIndex ps n).map (fun q => q.dependencies.length)).sum := by
  simp only [pkgIndex, List.filter_cons]
  by_cases hn : p.name = n
  · simp [hn]
  · simp [hn]

theorem remDeps_cons (pkgs : List UvPackage) (visited : List String) (n : String)
    (h : n ∉ visited) :
    remDeps pkgs visited =
      ((pkgIndex pkgs n).map (fun p => p.dependencies.length)).sum +
        remDeps pkgs (n :: visited) := by
  induction pkgs with
  | nil => rfl
  | cons p ps ih =>
    rw [remDeps_cons_pkg, remDeps_cons_pkg, pkgIndex_sum_cons, ih]
    by_cases hpn : p.name = n
    · rw [if_neg (show p.name ∉ visited from hpn ▸ h), if_pos hpn,
        if_pos (List.mem_cons.mpr (Or.inl hpn))]
      omega
    · rw [if_neg hpn]
      by_cases hpv : p.name ∈ visited
      · rw [if_pos hpv, if_pos (List.mem_cons_of_mem _ hpv)]
        omega
      · rw [if_neg hpv, if_neg (by simp [List.mem_cons, hpn, hpv])]
        omega

theorem enq_length_le (pkgs : List UvPackage) (n : String) (visited : List String) :
    (((pkgIndex pkgs n).flatMap (fun p => p.dependencies)).filter
      (fun d => decide (d ∉ n :: visited))).length ≤
      ((pkgIndex pkgs n).map (fun p => p.dependencies.length)).sum := by
  calc (((pkgIndex pkgs n).flatMap (fun p => p.dependencies)).filter
      (fun d => decide (d ∉ n :: visited))).length
      ≤ ((pkgIndex pkgs n).flatMap (fun p => p.dependencies)).length :=
        List.length_filter_le _ _
    _ = ((pkgIndex pkgs n).map (fun p => p.dependencies.length)).sum := by
        induction pkgIndex pkgs n with
        | nil => rfl
        | cons p ps ih => simp [List.flatMap_cons, ih]

theorem walkAux_fuel_succ (pkgs : List UvPackage) :
    ∀ fuel visited queue, queue.length + remDeps pkgs visited ≤ fuel →
      walkAux pkgs (fuel + 1) visited queue = walkAux pkgs fuel visited queue := by
  intro fuel
  induction fuel with
  | zero =>
    intro visited queue hb
    have : queue = [] := List.eq_nil_of_length_eq_zero (by omega)
    subst this
    rfl
  | succ fuel ih =>
    intro visited queue hb
    rcases queue with _ | ⟨n, rest⟩
    · rfl
    · by_cases hn : n ∈ visited
      · simp only [walkAux, if_pos hn]
        exact ih visited rest (by simp at hb; omega)
      · simp only [walkAux, if_neg hn]
        apply ih
        have h1 := enq_length_le pkgs n visited
        have h2 := remDeps_cons pkgs visited n hn
        simp only [List.length_append, List.length_cons] at hb ⊢
        omega

theorem walkAux_fuel_add (pkgs : List UvPackage) (k : Nat) :
    ∀ fuel visited queue, queue.length + remDeps pkgs visited ≤ fuel →
      walkAux pkgs (fuel + k) visited queue = walkAux pkgs fuel visited queue := by
  induction k with
  | zero => intro fuel visited queue _; rfl
  | succ k ih =>
    intro fuel visited queue hb
    have : fuel + (k + 1) = (fuel + k) + 1 := by omega
    rw [this, walkAux_fuel_succ pkgs (fuel + k) visited queue (by omega),
      ih fuel visited queue hb]

theorem walkAux_sound (pkgs : List UvPackage) :
    ∀ fuel visited queue n, n ∈ walkAux pkgs fuel visited queue →
      n ∈ visited ∨ ∃ s ∈ queue, Relation.ReflTransGen (depEdge pkgs) s n := by
  intro fuel
  induction fuel with
  | zero => intro visited queue n hn; exact Or.inl hn
  | succ fuel ih =>
    intro visited queue n hn
    rcases queue with _ | ⟨m, rest⟩
    · exact Or.inl hn
    · by_cases hm : m ∈ visited
      · simp only [walkAux, if_pos hm] at hn
        rcases ih _ _ _ hn with h | ⟨s, hs, hr⟩
        · exact Or.inl h
        · exact Or.inr ⟨s, List.mem_cons_of_mem _ hs, hr⟩
      · simp only [walkAux, if_neg hm] at hn
        rcases ih _ _ _ hn with h | ⟨s, hs, hr⟩
        · rcases List.mem_cons.mp h with rfl | h
          · exact Or.inr ⟨n, List.mem_cons_self _ _, Relation.ReflTransGen.refl⟩
          · exact Or.inl h
        · rcases List.mem_append.mp hs with hs | hs
          · have hs' := List.mem_filter.mp hs
            rcases List.mem_flatMap.mp hs'.1 with ⟨p, hp, hdep⟩
            exact Or.inr ⟨m, List.mem_cons_self _ _,
              Relation.ReflTransGen.head ⟨p, hp, hdep⟩ hr⟩
          · exact Or.inr ⟨s, List.mem_cons_of_mem _ hs, hr⟩

theorem walkAux_complete (pkgs : List UvPackage) :
    ∀ fuel visited queue, queue.length + remDeps pkgs visited ≤ fuel →
      (∀ a ∈ visited, ∀ b, depEdge pkgs a b → b ∈ visited ∨ b ∈ queue) →
      (∀ x ∈ visited, x ∈ walkAux pkgs fuel visited queue) ∧
      (∀ x ∈ queue, x ∈ walkAux pkgs fuel visited queue) ∧
      (∀ a ∈ walkAux pkgs fuel visited queue, ∀ b, depEdge pkgs a b →
        b ∈ walkAux pkgs fuel visited queue) := by
  intro fuel
  induction fuel with
  | zero =>
    intro visited queue hb hinv
    have hq : queue = [] := List.eq_nil_of_length_eq_zero (by omega)
    subst hq
    refine ⟨fun x hx => hx, fun x hx => absurd hx (List.not_mem_nil x), ?_⟩
    intro a ha b hedge
    rcases hinv a ha b hedge with h | h
    · exact h
    · exact absurd h (List.not_mem_nil b)
  | succ fuel ih =>
    intro visited queue hb hinv
    rcases queue with _ | ⟨m, rest⟩
    · refine ⟨fun x hx => hx, fun x hx => absurd hx (List.not_mem_nil x), ?_⟩
      intro a ha b hedge
      rcases hinv a ha b hedge with h | h
      · exact h
      · exact absurd h (List.not_mem_nil b)
    · by_cases hm : m ∈ visited
      · have hb' : rest.length + remDeps pkgs visited ≤ fuel := by
          simp only [List.length_cons] at hb; omega
        have hinv' : ∀ a ∈ visited, ∀ b, depEdge pkgs a b →
            b ∈ visited ∨ b ∈ rest := by
          intro a ha b hedge
          rcases hinv a ha b hedge with h | h
          · exact Or.inl h
          · rcases List.mem_cons.mp h with rfl | h
            · exact Or.inl hm
            · exact Or.inr h
        obtain ⟨h1, h2, h3⟩ := ih visited rest hb' hinv'
        simp only [walkAux, if_pos hm]
        exact ⟨h1, fun x hx => by
          rcases List.mem_cons.mp hx with rfl | hx
          · exact h1 x hm
          · exact h2 x hx, h3⟩
      · have hb' : (((pkgIndex pkgs m).flatMap (fun p => p.dependencies)).filter
            (fun d => decide (d ∉ m :: visited)) ++ rest).length +
            remDeps pkgs (m :: visited) ≤ fuel := by
          have h1 := enq_length_le pkgs m visited
          have h2 := remDeps_cons pkgs visited m hm
          simp only [List.length_append, List.length_cons] at hb ⊢
          omega
        have hinv' : ∀ a ∈ m :: visited, ∀ b, depEdge pkgs a b →
            b ∈ m :: visited ∨
              b ∈ ((pkgIndex pkgs m).flatMap (fun p => p.dependencies)).filter
                (fun d => decide (d ∉ m :: visited)) ++ rest := by
          intro a ha b hedge
          rcases List.mem_cons.mp ha with rfl | ha
          · by_cases hbv : b ∈ a :: visited
            · exact Or.inl hbv
            · refine Or.inr (List.mem_append.mpr (Or.inl ?_))
              refine List.mem_filter.mpr ⟨?_, by simpa using hbv⟩
              rcases hedge with ⟨p, hp, hdep⟩
              exact List.mem_flatMap.mpr ⟨p, hp, hdep⟩
          · rcases hinv a ha b hedge with h | h
            · exact Or.inl (List.mem_cons_of_mem _ h)
            · rcases List.mem_cons.mp h with rfl | h
              · exact Or.inl (List.mem_cons_self _ _)
              · exact Or.inr (List.mem_append.mpr (Or.inr h))
        obtain ⟨h1, h2, h3⟩ := ih (m :: visited) _ hb' hinv'
        simp only [walkAux, if_neg hm]
        refine ⟨fun x hx => h1 x (List.mem_cons_of_mem _ hx), fun x hx => ?_, h3⟩
        rcases List.mem_cons.mp hx with rfl | hx
        · exact h1 x (List.mem_cons_self _ _)
        · exact h2 x (List.mem_append.mpr (Or.inr hx))

/-- The visited set computed by `walk_deps` is exactly transitive
reachability from the seed names, on every catalog (cyclic ones included). -/
theorem walk_deps_mem (pkgs : List UvPackage) (seeds : List String) (n : String) :
    n ∈ walk_deps pkgs seeds ↔ Reachable pkgs seeds n := by
  constructor
  · intro hn
    rcases walkAux_sound pkgs _ _ _ _ hn with h | h
    · exact absurd h (List.not_mem_nil n)
    · exact h
  · rintro ⟨s, hs, hr⟩
    have hb : seeds.length + remDeps pkgs [] ≤ walkFuel pkgs seeds := le_refl _
    have hinv : ∀ a ∈ ([] : List String), ∀ b, depEdge pkgs a b →
        b ∈ ([] : List String) ∨ b ∈ seeds := by
      intro a ha; exact absurd ha (List.not_mem_nil a)
    obtain ⟨_, hseeds, hclosed⟩ := walkAux_complete pkgs _ [] seeds hb hinv
    induction hr with
    | refl => exact hseeds s hs
    | tail _ hedge ih => exact hclosed _ ih _ hedge

theorem walkAux_nodup (pkgs : List UvPackage) :
    ∀ fuel visited queue, visited.Nodup → (walkAux pkgs fuel visited queue).Nodup := by
  intro fuel
  induction fuel with
  | zero => intro visited queue h; exact h
  | succ fuel ih =>
    intro visited queue h
    rcases queue with _ | ⟨m, rest⟩
    · exact h
    · by_cases hm : m ∈ visited
      · simp only [walkAux, if_pos hm]; exact ih _ _ h
      · simp only [walkAux, if_neg hm]
        exact ih _ _ (List.nodup_cons.mpr ⟨hm, h⟩)

/-- The visited list never holds a name twice. -/
theorem walk_deps_nodup (pkgs : List UvPackage) (seeds : List String) :
    (walk_deps pkgs seeds).Nodup :=
  walkAux_nodup pkgs _ _ _ List.nodup_nil

/-! ### Properties of record collection -/

theorem mem_sortNames (names : List String) (n : String) :
    n ∈ sortNames names ↔ n ∈ names :=
  (List.perm_insertionSort (· ≤ ·) names).mem_iff

theorem sortNames_sorted (names : List String) :
    List.Sorted (· ≤ ·) (sortNames names) :=
  List.sorted_insertionSort (· ≤ ·) names

theorem sortNames_nodup (names : List String) (h : names.Nodup) :
    (sortNames names).Nodup :=
  ((List.perm_insertionSort (· ≤ ·) names).nodup_iff).mpr h

theorem emitEntry_eq_some (extra : Option String) (entry : UvPackage)
    (d : Dependency) (h : emitEntry extra entry = some d) :
    isRegistry entry = true ∧
      d = ⟨entry.name, entry.version, mkMarkers extra entry.resolutionMarker⟩ := by
  unfold emitEntry at h
  by_cases hr : isRegistry entry
  · rw [if_pos hr] at h
    exact ⟨hr, (Option.some_injective _ h).symm⟩
  · rw [if_neg hr] at h
    exact absurd h (Option.some_ne_none d).symm

theorem mem_pkgIndex (pkgs : List UvPackage) (n : String) (p : UvPackage) :
    p ∈ pkgIndex pkgs n ↔ p ∈ pkgs ∧ p.name = n := by
  unfold pkgIndex
  rw [List.mem_filter]
  simp only [beq_iff_eq]

theorem collect_deps_mem_entry (names : List String) (pkgs : List UvPackage)
    (extra : Option String) (d : Dependency) (hd : d ∈ collect_deps names pkgs extra) :
    d.name ∈ names ∧ ∃ entry ∈ pkgs, entry.name = d.name ∧ isRegistry entry = true ∧
      d.version = entry.version ∧ d.markers = mkMarkers extra entry.resolutionMarker := by
  unfold collect_deps at hd
  rcases List.mem_flatMap.mp hd with ⟨n, hn, hmem⟩
  rcases List.mem_filterMap.mp hmem with ⟨entry, hentry, hemit⟩
  obtain ⟨hreg, rfl⟩ := emitEntry_eq_some extra entry d hemit
  obtain ⟨hin, hname⟩ := (mem_pkgIndex pkgs n entry).mp hentry
  exact ⟨hname ▸ (mem_sortNames names n).mp hn, entry, hin, rfl, hreg, rfl, rfl⟩

theorem block_name_eq (pkgs : List UvPackage) (extra : Option String) (n : String)
    (d : Dependency) (hd : d ∈ (pkgIndex pkgs n).filterMap (emitEntry extra)) :
    d.name = n := by
  rcases List.mem_filterMap.mp hd with ⟨entry, hentry, hemit⟩
  obtain ⟨_, rfl⟩ := emitEntry_eq_some extra entry d hemit
  exact ((mem_pkgIndex pkgs n entry).mp hentry).2

theorem flatMap_block_filter (pkgs : List UvPackage) (extra : Option String)
    (n : String) :
    ∀ L : List String, L.Nodup →
      (L.flatMap (fun m => (pkgIndex pkgs m).filterMap (emitEntry extra))).filter
          (fun d => d.name == n) =
        if n ∈ L then (pkgIndex pkgs n).filterMap (emitEntry extra) else [] := by
  intro L
  induction L with
  | nil => intro _; simp
  | cons m L ih =>
    intro hnd
    rw [List.flatMap_cons, List.filter_append, ih (List.nodup_cons.mp hnd).2]
    by_cases hmn : m = n
    · subst hmn
      have hnotin : m ∉ L := (List.nodup_cons.mp hnd).1
      rw [if_neg hnotin, if_pos (List.mem_cons_self _ _), List.append_nil]
      apply List.filter_eq_self.mpr
      intro d hd
      simp [block_name_eq pkgs extra m d hd]
    · have h1 : ((pkgIndex pkgs m).filterMap (emitEntry extra)).filter
          (fun d => d.name == n) = [] := by
        apply List.filter_eq_nil_iff.mpr
        intro d hd
        simp [block_name_eq pkgs extra m d hd, hmn]
      rw [h1, List.nil_append]
      by_cases hnL : n ∈ L
      · rw [if_pos hnL, if_pos (List.mem_cons_of_mem _ hnL)]
      · rw [if_neg hnL, if_neg (by
          intro hc
          rcases List.mem_cons.mp hc with h | h
          · exact hmn h.symm
          · exact hnL h)]

/-- Filtering the output of `collect_deps` to a single name recovers exactly
that name's catalog entries, in catalog order (emitted once, guarded by the
duplicate-freeness of the name set). -/
theorem collect_deps_filter_name (names : List String) (pkgs : List UvPackage)
    (extra : Option String) (n : String) (hnd : names.Nodup) :
    (collect_deps names pkgs extra).filter (fun d => d.name == n) =
      if n ∈ names then (pkgIndex pkgs n).filterMap (emitEntry extra) else [] := by
  unfold collect_deps
  rw [flatMap_block_filter pkgs extra n (sortNames names) (sortNames_nodup names hnd)]
  by_cases hn : n ∈ names
  · rw [if_pos ((mem_sortNames names n).mpr hn), if_pos hn]
  · rw [if_neg (fun h => hn ((mem_sortNames names n).mp h)), if_neg hn]

theorem flatMap_block_sorted (pkgs : List UvPackage) (extra : Option String) :
    ∀ L : List String, List.Sorted (· ≤ ·) L →
      List.Sorted (· ≤ ·)
        ((L.flatMap (fun m => (pkgIndex pkgs m).filterMap (emitEntry extra))).map
          (fun d => d.name)) := by
  intro L
  induction L with
  | nil => intro _; simp
  | cons m L ih =>
    intro hs
    rw [List.flatMap_cons, List.map_append]
    apply (List.pairwise_append).mpr
    refine ⟨?_, ih hs.of_cons, ?_⟩
    · apply List.pairwise_iff_forall_sublist.mpr
      intro a b hab
      have ha := hab.subset (List.mem_cons_self a [b])
      have hb := hab.subset (List.mem_cons_of_mem a (List.mem_cons_self b []))
      rcases List.mem_map.mp ha with ⟨d, hd, rfl⟩
      rcases List.mem_map.mp hb with ⟨e, he, rfl⟩
      rw [block_name_eq pkgs extra m d hd, block_name_eq pkgs extra m e he]
    · intro a ha b hb
      rcases List.mem_map.mp ha with ⟨d, hd, rfl⟩
      rcases List.mem_map.mp hb with ⟨e, he, rfl⟩
      rw [block_name_eq pkgs extra m d hd]
      rcases List.mem_flatMap.mp he with ⟨m2, hm2, he2⟩
      rw [block_name_eq pkgs extra m2 e he2]
      exact List.rel_of_sorted_cons hs m2 hm2

/-- The names of the records emitted by `collect_deps` are lexicographically
sorted (duplicated adjacent names come from one name's several entries). -/
theorem collect_deps_sorted (names : List String) (pkgs : List UvPackage)
    (extra : Option String) :
    List.Sorted (· ≤ ·) ((collect_deps names pkgs extra).map (fun d => d.name)) :=
  flatMap_block_sorted pkgs extra (sortNames names) (sortNames_sorted names)

theorem filterMap_emit_filter (extra : Option String) :
    ∀ l : List UvPackage,
      (l.filter isRegistry).filterMap (emitEntry extra) = l.filterMap (emitEntry extra) := by
  intro l
  induction l with
  | nil => rfl
  | cons p ps ih =>
    by_cases hr : isRegistry p
    · rw [List.filter_cons_of_pos hr, List.filterMap_cons, List.filterMap_cons, ih]
    · rw [List.filter_cons_of_neg hr, List.filterMap_cons, ih]
      have : emitEntry extra p = none := by unfold emitEntry; rw [if_neg hr]
      rw [this]

theorem pkgIndex_filter_registry (pkgs : List UvPackage) (n : String) :
    pkgIndex (pkgs.filter isRegistry) n = (pkgIndex pkgs n).filter isRegistry := by
  unfold pkgIndex
  rw [List.filter_filter, List.filter_filter]
  apply List.filter_congr
  intro p _
  rw [Bool.and_comm]

/-- Deleting every non-registry entry from the catalog does not change the
records `collect_deps` emits: non-registry entries never become records. -/
theorem collect_deps_registry_only (names : List String) (pkgs : List UvPackage)
    (extra : Option String) :
    collect_deps names (pkgs.filter isRegistry) extra = collect_deps names pkgs extra := by
  unfold collect_deps
  apply congrArg (List.flatMap (sortNames names))
  funext n
  rw [pkgIndex_filter_registry, filterMap_emit_filter]

/-! ### Claim theorems for the graph-format parser -/

/-- C1: when the root entry is found, the name set of the main closure is
exactly the transitive closure over direct-dependency edges seeded from the
root's main dependency names; a name reachable through the
development-dependency group but not from the main seeds (nor from a
requested extra's seeds) is absent from the output entirely — the dev group
never seeds any traversal. -/
theorem uv_main_closure_dev_invisible (pkgs : List UvPackage)
    (projectName : String) (root : UvPackage)
    (hroot : find_root pkgs projectName = some root) :
    (∀ n, n ∈ walk_deps pkgs root.dependencies ↔
      Reachable pkgs root.dependencies n) ∧
    (∀ includeExtras deps n,
      parse_uv_lock pkgs projectName includeExtras = .ok deps →
      Reachable pkgs root.devDependencies n →
      ¬ Reachable pkgs root.dependencies n →
      (∀ e ∈ includeExtras,
        ¬ Reachable pkgs (lookupGroup root.optionalDependencies e) n) →
      ∀ d ∈ deps, d.name ≠ n) := by
  refine ⟨fun n => walk_deps_mem pkgs root.dependencies n, ?_⟩
  intro includeExtras deps n hparse _hdev hmain hextras d hd
  simp only [parse_uv_lock, hroot] at hparse
  rcases hparse
  intro heq
  rcases List.mem_append.mp hd with hmem | hmem
  · have h1 := (collect_deps_mem_entry _ _ _ _ hmem).1
    rw [heq] at h1
    exact hmain ((walk_deps_mem _ _ _).mp h1)
  · rcases List.mem_flatMap.mp hmem with ⟨e, he, hmem2⟩
    have h1 := (collect_deps_mem_entry _ _ _ _ hmem2).1
    rw [heq] at h1
    have h2 := List.mem_filter.mp h1
    exact hextras e he ((walk_deps_mem _ _ _).mp h2.1)

theorem uv_main_closure_dev_invisible_witness :
    find_root uvExampleDev "myapp" = some uvExampleDevRoot ∧
    ((∀ n, n ∈ walk_deps uvExampleDev uvExampleDevRoot.dependencies ↔
      Reachable uvExampleDev uvExampleDevRoot.dependencies n) ∧
    (∀ includeExtras deps n,
      parse_uv_lock uvExampleDev "myapp" includeExtras = .ok deps →
      Reachable uvExampleDev uvExampleDevRoot.devDependencies n →
      ¬ Reachable uvExampleDev uvExampleDevRoot.dependencies n →
      (∀ e ∈ includeExtras,
        ¬ Reachable uvExampleDev
          (lookupGroup uvExampleDevRoot.optionalDependencies e) n) →
      ∀ d ∈ deps, d.name ≠ n)) :=
  ⟨rfl, uv_main_closure_dev_invisible uvExampleDev "myapp" uvExampleDevRoot rfl⟩

/-- C2: the names emitted under a requested extra are exactly the set
difference of the extra closure minus the main closure; a name reachable
from main is emitted only by the main section (with no extra marker —
its markers come from `mkMarkers none`, the plain resolution-marker), and
never re-emitted by an extra section. -/
theorem uv_extra_set_difference (pkgs : List UvPackage) (projectName : String)
    (root : UvPackage) (includeExtras : List String) (deps : List Dependency)
    (hroot : find_root pkgs projectName = some root)
    (hparse : parse_uv_lock pkgs projectName includeExtras = .ok deps) :
    (∀ e n,
      n ∈ (walk_deps pkgs (lookupGroup root.optionalDependencies e)).filter
          (fun m => decide (m ∉ walk_deps pkgs root.dependencies)) ↔
        (Reachable pkgs (lookupGroup root.optionalDependencies e) n ∧
          ¬ Reachable pkgs root.dependencies n)) ∧
    (∀ n, Reachable pkgs root.dependencies n →
      deps.filter (fun d => d.name == n) =
        (collect_deps (walk_deps pkgs root.dependencies) pkgs none).filter
          (fun d => d.name == n)) ∧
    (∀ n, Reachable pkgs root.dependencies n → ∀ d ∈ deps, d.name = n →
      ∃ entry ∈ pkgs, entry.name = n ∧ isRegistry entry = true ∧
        d.version = entry.version ∧
        d.markers = mkMarkers none entry.resolutionMarker) := by
  simp only [parse_uv_lock, hroot] at hparse
  rcases hparse
  have hextrapart : ∀ n, Reachable pkgs root.dependencies n →
      ∀ d ∈ includeExtras.flatMap (fun e =>
        collect_deps ((walk_deps pkgs (lookupGroup root.optionalDependencies e)).filter
          (fun m => decide (m ∉ walk_deps pkgs root.dependencies))) pkgs (some e)),
      ¬ d.name = n := by
    intro n hn d hd heq
    rcases List.mem_flatMap.mp hd with ⟨e, _, hmem⟩
    have h1 := (collect_deps_mem_entry _ _ _ _ hmem).1
    rw [heq] at h1
    have h2 := List.mem_filter.mp h1
    rw [decide_eq_true_eq] at h2
    exact h2.2 ((walk_deps_mem _ _ _).mpr hn)
  refine ⟨?_, ?_, ?_⟩
  · intro e n
    rw [List.mem_filter, decide_eq_true_eq, walk_deps_mem, walk_deps_mem]
  · intro n hn
    rw [List.filter_append]
    have : (includeExtras.flatMap (fun e =>
        collect_deps ((walk_deps pkgs (lookupGroup root.optionalDependencies e)).filter
          (fun m => decide (m ∉ walk_deps pkgs root.dependencies))) pkgs
          (some e))).filter (fun d => d.name == n) = [] := by
      apply List.filter_eq_nil_iff.mpr
      intro d hd
      simp only [beq_iff_eq]
      exact hextrapart n hn d hd
    rw [this, List.append_nil]
  · intro n hn d hd heq
    rcases List.mem_append.mp hd with hmem | hmem
    · obtain ⟨_, entry, hin, hname, hreg, hver, hmk⟩ :=
        collect_deps_mem_entry _ _ _ _ hmem
      exact ⟨entry, hin, heq ▸ hname, hreg, hver, hmk⟩
    · exact absurd heq (hextrapart n hn d hmem)

theorem uv_extra_set_difference_witness :
    find_root uvExampleShared "myapp" = some uvExampleSharedRoot ∧
    parse_uv_lock uvExampleShared "myapp" ["postgres"] =
      .ok [⟨"click", "8.1.7", none⟩, ⟨"flask", "3.0.0", none⟩,
        ⟨"psycopg2", "2.9.9", some "extra == \"postgres\""⟩] ∧
    ((∀ e n,
      n ∈ (walk_deps uvExampleShared
            (lookupGroup uvExampleSharedRoot.optionalDependencies e)).filter
          (fun m =>
            decide (m ∉ walk_deps uvExampleShared uvExampleSharedRoot.dependencies)) ↔
        (Reachable uvExampleShared
            (lookupGroup uvExampleSharedRoot.optionalDependencies e) n ∧
          ¬ Reachable uvExampleShared uvExampleSharedRoot.dependencies n)) ∧
    (∀ n, Reachable uvExampleShared uvExampleSharedRoot.dependencies n →
      ([⟨"click", "8.1.7", none⟩, ⟨"flask", "3.0.0", none⟩,
        (⟨"psycopg2", "2.9.9", some "extra == \"postgres\""⟩ : Dependency)].filter
          (fun d => d.name == n)) =
        (collect_deps (walk_deps uvExampleShared uvExampleSharedRoot.dependencies)
          uvExampleShared none).filter (fun d => d.name == n)) ∧
    (∀ n, Reachable uvExampleShared uvExampleSharedRoot.dependencies n →
      ∀ d ∈ [⟨"click", "8.1.7", none⟩, ⟨"flask", "3.0.0", none⟩,
        (⟨"psycopg2", "2.9.9", some "extra == \"postgres\""⟩ : Dependency)],
        d.name = n →
      ∃ entry ∈ uvExampleShared, entry.name = n ∧ isRegistry entry = true ∧
        d.version = entry.version ∧
        d.markers = mkMarkers none entry.resolutionMarker)) :=
  ⟨rfl, by rfl,
    uv_extra_set_difference uvExampleShared "myapp" uvExampleSharedRoot
      ["postgres"] _ rfl (by rfl)⟩

/-- C3 counterexample: an entry that carries a `resolution-marker` whose
value is the empty string, emitted under the requested extra `postgres`, is
rendered with marker `extra == "postgres"` alone — not the combined
`extra == "postgres" and <resolution-marker>` the claim prescribes for every
entry carrying a resolution-marker (Python truthiness treats the empty
string like an absent field). -/
theorem uv_marker_empty_resolution_counterexample :
    (∃ p ∈ uvExampleEmptyMarker, p.name = "pkga" ∧
      p.resolutionMarker = some "" ∧ isRegistry p = true) ∧
    parse_uv_lock uvExampleEmptyMarker "myapp" ["postgres"] =
      .ok [⟨"pkga", "1", some (extraClause "postgres")⟩] ∧
    mkMarkers (some "postgres") (some "") = some (extraClause "postgres") ∧
    some (extraClause "postgres") ≠ some (extraClause "postgres" ++ " and " ++ "") := by
  refine ⟨⟨⟨"pkga", "1", some "https://pypi.org/simple", some "", [], [], []⟩,
    by decide, by decide, by decide, by decide⟩, by rfl, by decide, by decide⟩

/-- C3 amended: marker synthesis for registry-sourced records, with an
empty-string resolution-marker (or empty-string extra name) treated as
absent. Under a requested non-empty extra `e`, an entry with a non-empty
resolution-marker `m` is rendered with `extra == "e" and m`, and one with no
(or an empty) resolution-marker with exactly `extra == "e"`; in the main
closure the marker is the entry's resolution-marker when present and
non-empty, and absent otherwise. Every record of `collect_deps` carries
exactly the synthesized marker of its registry-sourced catalog entry. -/
theorem uv_marker_synthesis (names : List String) (pkgs : List UvPackage)
    (extra : Option String) :
    (∀ e m, e ≠ "" → m ≠ "" →
      mkMarkers (some e) (some m) = some (extraClause e ++ " and " ++ m)) ∧
    (∀ e, e ≠ "" → mkMarkers (some e) none = some (extraClause e) ∧
      mkMarkers (some e) (some "") = some (extraClause e)) ∧
    (∀ m, m ≠ "" → mkMarkers none (some m) = some m) ∧
    mkMarkers none none = none ∧
    mkMarkers none (some "") = none ∧
    (∀ d ∈ collect_deps names pkgs extra,
      ∃ entry ∈ pkgs, entry.name = d.name ∧ isRegistry entry = true ∧
        d.version = entry.version ∧
        d.markers = mkMarkers extra entry.resolutionMarker) := by
  refine ⟨?_, ?_, ?_, rfl, rfl, ?_⟩
  · intro e m he hm
    simp only [mkMarkers, if_pos he, if_pos hm]
  · intro e he
    constructor
    · simp only [mkMarkers, if_pos he]
    · simp only [mkMarkers, if_pos he]
      rw [if_neg (by simp)]
  · intro m hm
    simp only [mkMarkers, if_pos hm]
  · intro d hd
    obtain ⟨_, entry, hin, hname, hreg, hver, hmk⟩ :=
      collect_deps_mem_entry names pkgs extra d hd
    exact ⟨entry, hin, hname, hreg, hver, hmk⟩

/-- C4: a catalog entry whose source is not a plain registry source never
produces an output record — deleting all non-registry entries leaves the
emitted records unchanged, and every record stems from a registry entry —
yet the direct-dependency edges of a non-registry entry are still followed
by the reachability traversal. -/
theorem uv_nonregistry_traversed_not_emitted (pkgs : List UvPackage)
    (names seeds : List String) (extra : Option String) (entry : UvPackage)
    (b : String) (hmem : entry ∈ pkgs) (_hreg : isRegistry entry = false)
    (hreach : entry.name ∈ walk_deps pkgs seeds) (hdep : b ∈ entry.dependencies) :
    b ∈ walk_deps pkgs seeds ∧
    collect_deps names (pkgs.filter isRegistry) extra =
      collect_deps names pkgs extra ∧
    (∀ d ∈ collect_deps names pkgs extra,
      ∃ p ∈ pkgs, p.name = d.name ∧ isRegistry p = true) := by
  refine ⟨?_, collect_deps_registry_only names pkgs extra, ?_⟩
  · rcases (walk_deps_mem pkgs seeds entry.name).mp hreach with ⟨s, hs, hr⟩
    refine (walk_deps_mem pkgs seeds b).mpr ⟨s, hs, hr.tail ?_⟩
    exact ⟨entry, (mem_pkgIndex pkgs entry.name entry).mpr ⟨hmem, rfl⟩, hdep⟩
  · intro d hd
    obtain ⟨_, p, hin, hname, hr, _, _⟩ := collect_deps_mem_entry names pkgs extra d hd
    exact ⟨p, hin, hname, hr⟩

theorem uv_nonregistry_traversed_not_emitted_witness :
    (⟨"my-lib", "0.1.0", none, none, ["six"], [], []⟩ : UvPackage) ∈ uvExampleGit ∧
    isRegistry ⟨"my-lib", "0.1.0", none, none, ["six"], [], []⟩ = false ∧
    "my-lib" ∈ walk_deps uvExampleGit ["my-lib", "requests"] ∧
    ("six" ∈ walk_deps uvExampleGit ["my-lib", "requests"] ∧
      collect_deps (walk_deps uvExampleGit ["my-lib", "requests"])
          (uvExampleGit.filter isRegistry) none =
        collect_deps (walk_deps uvExampleGit ["my-lib", "requests"])
          uvExampleGit none ∧
      (∀ d ∈ collect_deps (walk_deps uvExampleGit ["my-lib", "requests"])
          uvExampleGit none,
        ∃ p ∈ uvExampleGit, p.name = d.name ∧ isRegistry p = true)) :=
  ⟨by decide, by decide, by decide,
    uv_nonregistry_traversed_not_emitted uvExampleGit
      (walk_deps uvExampleGit ["my-lib", "requests"]) ["my-lib", "requests"] none
      ⟨"my-lib", "0.1.0", none, none, ["six"], [], []⟩ "six"
      (by decide) (by decide) (by decide) (by decide)⟩

/-- C5: the output is the main section followed by one section per
requested extra, in the order the caller listed the extras; the names of
every section are lexicographically sorted (a name set is handed to
`collect_deps` only as a duplicate-free list, witnessed by the `Nodup`
conjuncts); and filtering any section to a single name yields exactly that
name's catalog entries in catalog order. -/
theorem uv_output_order (pkgs : List UvPackage) (projectName : String)
    (root : UvPackage) (includeExtras : List String) (deps : List Dependency)
    (hroot : find_root pkgs projectName = some root)
    (hparse : parse_uv_lock pkgs projectName includeExtras = .ok deps) :
    deps =
      collect_deps (walk_deps pkgs root.dependencies) pkgs none ++
        includeExtras.flatMap (fun e =>
          collect_deps
            ((walk_deps pkgs (lookupGroup root.optionalDependencies e)).filter
              (fun n => decide (n ∉ walk_deps pkgs root.dependencies)))
            pkgs (some e)) ∧
    (∀ names extra, List.Sorted (· ≤ ·)
      ((collect_deps names pkgs extra).map (fun d => d.name))) ∧
    (∀ extra n names, names.Nodup →
      (collect_deps names pkgs extra).filter (fun d => d.name == n) =
        if n ∈ names then (pkgIndex pkgs n).filterMap (emitEntry extra) else []) ∧
    (walk_deps pkgs root.dependencies).Nodup ∧
    (∀ e, ((walk_deps pkgs (lookupGroup root.optionalDependencies e)).filter
        (fun n => decide (n ∉ walk_deps pkgs root.dependencies))).Nodup) := by
  refine ⟨?_, fun names extra => collect_deps_sorted names pkgs extra,
    fun extra n names hnd => collect_deps_filter_name names pkgs extra n hnd,
    walk_deps_nodup pkgs root.dependencies,
    fun e => (walk_deps_nodup pkgs (lookupGroup root.optionalDependencies e)).filter _⟩
  simp only [parse_uv_lock, hroot] at hparse
  rcases hparse
  rfl

theorem uv_output_order_witness :
    find_root uvExampleForked "myapp" =
      some ⟨"myapp", "1.0.0", none, none, ["numpy"], [], []⟩ ∧
    parse_uv_lock uvExampleForked "myapp" [] =
      .ok [⟨"numpy", "1.26.4", some "python_version < '3.12'"⟩,
        ⟨"numpy", "2.1.0", some "python_version >= '3.12'"⟩] ∧
    ([⟨"numpy", "1.26.4", some "python_version < '3.12'"⟩,
      (⟨"numpy", "2.1.0", some "python_version >= '3.12'"⟩ : Dependency)] =
      collect_deps
        (walk_deps uvExampleForked
          (UvPackage.dependencies ⟨"myapp", "1.0.0", none, none, ["numpy"], [], []⟩))
        uvExampleForked none ++
        ([] : List String).flatMap (fun e =>
          collect_deps
            ((walk_deps uvExampleForked
              (lookupGroup (UvPackage.optionalDependencies
                ⟨"myapp", "1.0.0", none, none, ["numpy"], [], []⟩) e)).filter
              (fun n => decide (n ∉ walk_deps uvExampleForked
                (UvPackage.dependencies
                  ⟨"myapp", "1.0.0", none, none, ["numpy"], [], []⟩))))
            uvExampleForked (some e)) ∧
    (∀ names extra, List.Sorted (· ≤ ·)
      ((collect_deps names uvExampleForked extra).map (fun d => d.name))) ∧
    (∀ extra n names, names.Nodup →
      (collect_deps names uvExampleForked extra).filter (fun d => d.name == n) =
        if n ∈ names then (pkgIndex uvExampleForked n).filterMap (emitEntry extra)
        else []) ∧
    (walk_deps uvExampleForked
      (UvPackage.dependencies
        ⟨"myapp", "1.0.0", none, none, ["numpy"], [], []⟩)).Nodup ∧
    (∀ e, ((walk_deps uvExampleForked
        (lookupGroup (UvPackage.optionalDependencies
          ⟨"myapp", "1.0.0", none, none, ["numpy"], [], []⟩) e)).filter
        (fun n => decide (n ∉ walk_deps uvExampleForked
          (UvPackage.dependencies
            ⟨"myapp", "1.0.0", none, none, ["numpy"], [], []⟩)))).Nodup)) :=
  ⟨by decide, by rfl,
    uv_output_order uvExampleForked "myapp"
      ⟨"myapp", "1.0.0", none, none, ["numpy"], [], []⟩ [] _ (by decide) (by rfl)⟩

/-- C9: the traversal loop of `walk_deps` reaches its final visited set
within the precomputed iteration bound on every finite catalog — handing
the loop any amount of extra fuel never changes the result, so cycles and
deep chains cannot make it run forever — and the visited list never takes
a name twice (the visited-set guard). -/
theorem uv_walk_terminates_visits_once (pkgs : List UvPackage)
    (seeds : List String) (k : Nat) :
    walkAux pkgs (walkFuel pkgs seeds + k) [] seeds = walk_deps pkgs seeds ∧
    (walk_deps pkgs seeds).Nodup :=
  ⟨walkAux_fuel_add pkgs k (walkFuel pkgs seeds) [] seeds (le_refl _),
    walk_deps_nodup pkgs seeds⟩

/-- C10: the graph parser fails only when the root is missing, and then with
exactly the root-not-found message; when the root is found it always
returns a record list. A direct-dependency reference to a name with no
catalog entry is harmless: the name still enters the reachability set
(edge targets of reachable names are reachable, whether or not the target
has an entry), and it contributes no record (every record's name has a
catalog entry). -/
theorem uv_dangling_reference_tolerated (pkgs : List UvPackage)
    (projectName : String) (includeExtras : List String) :
    (∀ msg, parse_uv_lock pkgs projectName includeExtras = .error msg →
      find_root pkgs projectName = none ∧ msg = rootNotFoundMsg projectName) ∧
    (∀ root, find_root pkgs projectName = some root →
      ∃ deps, parse_uv_lock pkgs projectName includeExtras = .ok deps) ∧
    (∀ seeds a b, a ∈ walk_deps pkgs seeds → depEdge pkgs a b →
      b ∈ walk_deps pkgs seeds) ∧
    (∀ deps, parse_uv_lock pkgs projectName includeExtras = .ok deps →
      ∀ b, pkgIndex pkgs b = [] → ∀ d ∈ deps, d.name ≠ b) := by
  refine ⟨?_, ?_, ?_, ?_⟩
  · intro msg herr
    cases hfr : find_root pkgs projectName with
    | none =>
      simp only [parse_uv_lock, hfr, Except.error.injEq] at herr
      exact ⟨rfl, herr.symm⟩
    | some root =>
      simp only [parse_uv_lock, hfr] at herr
      exact Except.noConfusion herr
  · intro root hroot
    refine ⟨collect_deps (walk_deps pkgs root.dependencies) pkgs none ++
      includeExtras.flatMap (fun e =>
        collect_deps ((walk_deps pkgs (lookupGroup root.optionalDependencies e)).filter
          (fun n => decide (n ∉ walk_deps pkgs root.dependencies))) pkgs (some e)), ?_⟩
    simp only [parse_uv_lock, hroot]
  · intro seeds a b ha hedge
    rcases (walk_deps_mem pkgs seeds a).mp ha with ⟨s, hs, hr⟩
    exact (walk_deps_mem pkgs seeds b).mpr ⟨s, hs, hr.tail hedge⟩
  · intro deps hparse b hempty d hd heq
    cases hfr : find_root pkgs projectName with
    | none =>
      simp only [parse_uv_lock, hfr] at hparse
      exact Except.noConfusion hparse
    | some root =>
      simp only [parse_uv_lock, hfr] at hparse
      rcases hparse
      have hentry : ∃ entry ∈ pkgs, entry.name = d.name := by
        rcases List.mem_append.mp hd with hmem | hmem
        · obtain ⟨_, entry, hin, hname, _⟩ := collect_deps_mem_entry _ _ _ _ hmem
          exact ⟨entry, hin, hname⟩
        · rcases List.mem_flatMap.mp hmem with ⟨e, _, hmem2⟩
          obtain ⟨_, entry, hin, hname, _⟩ := collect_deps_mem_entry _ _ _ _ hmem2
          exact ⟨entry, hin, hname⟩
      rcases hentry with ⟨entry, hin, hname⟩
      have : entry ∈ pkgIndex pkgs b :=
        (mem_pkgIndex pkgs b entry).mpr ⟨hin, hname.trans heq⟩
      rw [hempty] at this
      exact absurd this (List.not_mem_nil entry)

/-! ### Claim theorems for the pylock parser -/

/-- C8: a simple-catalog entry whose marker carries an extra condition (as
the parser's regex detects one) is excluded exactly when that extra was not
requested, and emitted with its full original marker string unchanged when
it was; an entry whose marker carries no such condition (or no marker at
all) is always emitted with the marker passed through verbatim. Every
output record is the verbatim name/version/marker of some catalog entry. -/
theorem pylock_extra_marker_filtering (pkgsList : List PylockPackage)
    (includeExtras : List String) :
    parse_pylock_toml pkgsList includeExtras =
      pkgsList.filterMap (pylockEmit includeExtras) ∧
    (∀ pkg m x, pkg.marker = some m → searchExtra m.data = some x →
      (x ∉ includeExtras → pylockEmit includeExtras pkg = none) ∧
      (x ∈ includeExtras →
        pylockEmit includeExtras pkg = some ⟨pkg.name, pkg.version, some m⟩)) ∧
    (∀ pkg, (∀ m, pkg.marker = some m → searchExtra m.data = none) →
      pylockEmit includeExtras pkg = some ⟨pkg.name, pkg.version, pkg.marker⟩) ∧
    (∀ d ∈ parse_pylock_toml pkgsList includeExtras,
      ∃ pkg ∈ pkgsList, d = ⟨pkg.name, pkg.version, pkg.marker⟩) := by
  have hsome : ∀ pkg m x, pkg.marker = some m → searchExtra m.data = some x →
      (x ∉ includeExtras → pylockEmit includeExtras pkg = none) ∧
      (x ∈ includeExtras →
        pylockEmit includeExtras pkg = some ⟨pkg.name, pkg.version, some m⟩) := by
    intro pkg m x hm hx
    have hm' : m ≠ "" := by
      intro hc
      rw [hc] at hx
      exact Option.noConfusion hx
    constructor
    · intro hnot
      simp only [pylockEmit, hm, if_pos hm', hx, if_neg hnot]
    · intro hin
      simp only [pylockEmit, hm, if_pos hm', hx, if_pos hin]
  have hnone : ∀ pkg, (∀ m, pkg.marker = some m → searchExtra m.data = none) →
      pylockEmit includeExtras pkg = some ⟨pkg.name, pkg.version, pkg.marker⟩ := by
    intro pkg hno
    match hmk : pkg.marker with
    | none => simp only [pylockEmit, hmk]
    | some m =>
      by_cases hm' : m = ""
      · simp only [pylockEmit, hmk, hm', ne_eq, not_true_eq_false, if_false, hmk]
      · simp only [pylockEmit, hmk, if_pos hm', hno m hmk]
  refine ⟨rfl, hsome, hnone, ?_⟩
  intro d hd
  rcases List.mem_filterMap.mp hd with ⟨pkg, hin, hemit⟩
  refine ⟨pkg, hin, ?_⟩
  rcases hmk : pkg.marker with _ | m
  · have h := hnone pkg (fun m hm => by rw [hmk] at hm; exact Option.noConfusion hm)
    rw [h, hmk] at hemit
    exact (Option.some_injective _ hemit).symm
  · by_cases hm' : m = ""
    · subst hm'
      have h := hnone pkg (fun m' hm'' => by
        rw [hmk] at hm''
        obtain rfl := Option.some_injective _ hm''
        rfl)
      rw [h, hmk] at hemit
      exact (Option.some_injective _ hemit).symm
    · rcases hs : searchExtra m.data with _ | x
      · have h := hnone pkg (fun m' hm'' => by
          rw [hmk] at hm''
          obtain rfl := Option.some_injective _ hm''
          exact hs)
        rw [h, hmk] at hemit
        exact (Option.some_injective _ hemit).symm
      · by_cases hin2 : x ∈ includeExtras
        · rw [(hsome pkg m x hmk hs).2 hin2] at hemit
          exact (Option.some_injective _ hemit).symm
        · rw [(hsome pkg m x hmk hs).1 hin2] at hemit
          exact Option.noConfusion hemit

theorem pylock_example_eval :
    parse_pylock_toml pylockExample [] = [⟨"flask", "3.0.0", none⟩] ∧
    parse_pylock_toml pylockExample ["dev"] =
      [⟨"flask", "3.0.0", none⟩, ⟨"pytest", "8.0.0", some "extra == 'dev'"⟩] := by
  exact ⟨rfl, rfl⟩

/-! ### Claim theorems for the pinned-requirements parser -/

theorem unpackPieces_ne_ok_none (g2 : Option (List Char))
    (pieces : List (List Char)) : unpackPieces g2 pieces ≠ .ok none := by
  match pieces with
  | [] => exact Except.noConfusion
  | [n] => exact Except.noConfusion
  | [n, v] => intro h; exact Option.noConfusion (Except.ok.inj h)
  | n :: v :: x :: xs => exact Except.noConfusion

theorem unpackPieces_error_inv (g2 : Option (List Char))
    (pieces : List (List Char)) (e : String)
    (h : unpackPieces g2 pieces = .error e) :
    (∀ n v, pieces ≠ [n, v]) ∧ e = unpackErrMsg := by
  match pieces with
  | [] =>
    refine ⟨fun n v hc => List.noConfusion hc, ?_⟩
    exact (Except.error.inj h).symm
  | [n] =>
    refine ⟨fun n2 v hc => by
      have := List.cons.inj hc
      exact List.noConfusion this.2, ?_⟩
    exact (Except.error.inj h).symm
  | [n, v] => exact Except.noConfusion h
  | n :: v :: x :: xs =>
    refine ⟨fun n2 v2 hc => ?_, (Except.error.inj h).symm⟩
    have h1 := List.cons.inj hc
    have h2 := List.cons.inj h1.2
    exact List.noConfusion h2.2

theorem parseReqLine_skip_iff (raw : List Char) :
    parseReqLine raw = .ok none ↔
      ((cleanupLine raw).isEmpty || (cleanupLine raw).head? == some '-') = true := by
  unfold parseReqLine
  constructor
  · intro h
    by_cases hc : ((cleanupLine raw).isEmpty || (cleanupLine raw).head? == some '-') = true
    · exact hc
    · rw [if_neg hc] at h
      simp only [] at h
      split at h
      · exact Except.noConfusion h
      · exact absurd h (unpackPieces_ne_ok_none _ _)
  · intro h
    rw [if_pos h]

theorem parseReqLine_error_inv (raw : List Char) (e : String)
    (h : parseReqLine raw = .error e) :
    ((cleanupLine raw).isEmpty || (cleanupLine raw).head? == some '-') = false ∧
    ((reqMatch (pyStrip (subHash (cleanupLine raw))) = none ∧
        e = invalidLineMsg (pyStrip (subHash (cleanupLine raw)))) ∨
      (∃ g1 g2, reqMatch (pyStrip (subHash (cleanupLine raw))) = some (g1, g2) ∧
        (∀ n v, splitEqEq g1 ≠ [n, v]) ∧ e = unpackErrMsg)) := by
  unfold parseReqLine at h
  by_cases hc : ((cleanupLine raw).isEmpty || (cleanupLine raw).head? == some '-') = true
  · rw [if_pos hc] at h
    exact Except.noConfusion h
  · rw [if_neg hc] at h
    simp only [] at h
    refine ⟨Bool.not_eq_true _ ▸ hc, ?_⟩
    split at h
    · rename_i hmatch
      exact Or.inl ⟨hmatch, (Except.error.inj h).symm⟩
    · rename_i g1 g2 hmatch
      obtain ⟨hne, he⟩ := unpackPieces_error_inv _ _ _ h
      exact Or.inr ⟨g1, g2, hmatch, hne, he⟩

theorem parseReqLine_some_inv (raw : List Char) (d : Dependency)
    (h : parseReqLine raw = .ok (some d)) :
    ((cleanupLine raw).isEmpty || (cleanupLine raw).head? == some '-') = false ∧
    ∃ g1 g2, reqMatch (pyStrip (subHash (cleanupLine raw))) = some (g1, g2) := by
  unfold parseReqLine at h
  by_cases hc : ((cleanupLine raw).isEmpty || (cleanupLine raw).head? == some '-') = true
  · rw [if_pos hc] at h
    exact Option.noConfusion (Except.ok.inj h)
  · rw [if_neg hc] at h
    simp only [] at h
    refine ⟨Bool.not_eq_true _ ▸ hc, ?_⟩
    split at h
    · exact Except.noConfusion h
    · rename_i g1 g2 hmatch
      exact ⟨g1, g2, hmatch⟩

/-- C6 amended: provided every non-skipped line that matches the shape has
a name-version segment that destructures into exactly a name and a version
(its version holds no further `==`), the parser raises an error if and only
if some non-skipped line fails the shape match after cleanup, and every
raised error carries the message reporting the offending cleaned line. The
`Except` result makes the abort total: an error excludes any record list. -/
theorem req_parse_error_iff (lines : List String)
    (hsplit : ∀ l ∈ lines, ∀ g1 g2,
      reqMatch (pyStrip (subHash (cleanupLine l.data))) = some (g1, g2) →
      ∃ n v, splitEqEq g1 = [n, v]) :
    ((∃ msg, parse_requirements_txt lines = .error msg) ↔
      (∃ l ∈ lines,
        ((cleanupLine l.data).isEmpty ||
          (cleanupLine l.data).head? == some '-') = false ∧
        reqMatch (pyStrip (subHash (cleanupLine l.data))) = none)) ∧
    (∀ msg, parse_requirements_txt lines = .error msg →
      ∃ l ∈ lines,
        ((cleanupLine l.data).isEmpty ||
          (cleanupLine l.data).head? == some '-') = false ∧
        reqMatch (pyStrip (subHash (cleanupLine l.data))) = none ∧
        msg = invalidLineMsg (pyStrip (subHash (cleanupLine l.data)))) := by
  induction lines with
  | nil =>
    refine ⟨⟨?_, ?_⟩, ?_⟩
    · rintro ⟨msg, hmsg⟩
      exact Except.noConfusion hmsg
    · rintro ⟨l, hl, _⟩
      exact absurd hl (List.not_mem_nil l)
    · intro msg hmsg
      exact Except.noConfusion hmsg
  | cons l ls ih =>
    obtain ⟨ih1, ih2⟩ := ih (fun l' hl' => hsplit l' (List.mem_cons_of_mem _ hl'))
    cases hline : parseReqLine l.data with
    | error e =>
      obtain ⟨hskip, hcases⟩ := parseReqLine_error_inv l.data e hline
      rcases hcases with ⟨hnone, he⟩ | ⟨g1, g2, hmatch, hbad, _⟩
      · have hparse : parse_requirements_txt (l :: ls) = .error e := by
          simp only [parse_requirements_txt, hline]
        refine ⟨⟨fun _ => ⟨l, List.mem_cons_self _ _, hskip, hnone⟩,
          fun _ => ⟨e, hparse⟩⟩, ?_⟩
        intro msg hmsg
        rw [hparse] at hmsg
        exact ⟨l, List.mem_cons_self _ _, hskip, hnone,
          (Except.error.inj hmsg) ▸ he⟩
      · obtain ⟨n, v, hnv⟩ := hsplit l (List.mem_cons_self _ _) g1 g2 hmatch
        exact absurd hnv (hbad n v)
    | ok o =>
      cases o with
      | none =>
        have hparse : parse_requirements_txt (l :: ls) =
            parse_requirements_txt ls := by
          simp only [parse_requirements_txt, hline]
        have hlskip := (parseReqLine_skip_iff l.data).mp hline
        refine ⟨?_, ?_⟩
        · rw [hparse, ih1]
          constructor
          · rintro ⟨l', hl', hprop⟩
            exact ⟨l', List.mem_cons_of_mem _ hl', hprop⟩
          · rintro ⟨l', hl', hprop⟩
            rcases List.mem_cons.mp hl' with rfl | hl''
            · rw [hprop.1] at hlskip
              exact Bool.noConfusion hlskip
            · exact ⟨l', hl'', hprop⟩
        · intro msg hmsg
          rw [hparse] at hmsg
          obtain ⟨l', hl', hprop⟩ := ih2 msg hmsg
          exact ⟨l', List.mem_cons_of_mem _ hl', hprop⟩
      | some d =>
        obtain ⟨hskip, g1, g2, hmatch⟩ := parseReqLine_some_inv l.data d hline
        have hparse : ∀ msg, parse_requirements_txt (l :: ls) = .error msg ↔
            parse_requirements_txt ls = .error msg := by
          intro msg
          simp only [parse_requirements_txt, hline]
          cases parse_requirements_txt ls with
          | error e2 => simp
          | ok ds => simp
        refine ⟨⟨?_, ?_⟩, ?_⟩
        · rintro ⟨msg, hmsg⟩
          obtain ⟨l', hl', hprop⟩ := ih1.mp ⟨msg, (hparse msg).mp hmsg⟩
          exact ⟨l', List.mem_cons_of_mem _ hl', hprop⟩
        · rintro ⟨l', hl', hprop⟩
          rcases List.mem_cons.mp hl' with rfl | hl''
          · rw [hmatch] at hprop
            exact Option.noConfusion hprop.2
          · obtain ⟨msg, hmsg⟩ := ih1.mpr ⟨l', hl'', hprop⟩
            exact ⟨msg, (hparse msg).mpr hmsg⟩
        · intro msg hmsg
          obtain ⟨l', hl', hprop⟩ := ih2 msg ((hparse msg).mp hmsg)
          exact ⟨l', List.mem_cons_of_mem _ hl', hprop⟩

/-- C6 counterexample: with the input lines `pkg==1==2` and `???`, some
non-skipped cleaned line (`???`) fails the shape match, yet the parser does
not raise the parse error reporting an offending line: the earlier line
`pkg==1==2` matches the shape (version `1==2`), and its
`name, version = name_version.split("==")` destructuring raises the
unrelated unpacking `ValueError` first. -/
theorem req_parse_error_iff_counterexample :
    (∃ l ∈ ["pkg==1==2", "???"],
      ((cleanupLine l.data).isEmpty ||
        (cleanupLine l.data).head? == some '-') = false ∧
      reqMatch (pyStrip (subHash (cleanupLine l.data))) = none) ∧
    parse_requirements_txt ["pkg==1==2", "???"] = .error unpackErrMsg ∧
    (∀ c, unpackErrMsg ≠ invalidLineMsg c) := by
  refine ⟨⟨"???", by decide, by decide, by decide⟩, by rfl, ?_⟩
  intro c h
  have h2 : unpackErrMsg.data.head? = (invalidLineMsg c).data.head? :=
    congrArg (fun s => s.data.head?) h
  have h3 : (invalidLineMsg c).data.head? = some 'I' := by
    show ("Invalid requirements.txt line: " ++ String.mk c).data.head? = some 'I'
    rw [String.data_append]
    rfl
  rw [h3] at h2
  exact absurd h2 (by decide)

theorem req_parse_error_iff_witness :
    (∀ l ∈ ["requests==2.31.0", "bad !!"], ∀ g1 g2,
      reqMatch (pyStrip (subHash (cleanupLine l.data))) = some (g1, g2) →
      ∃ n v, splitEqEq g1 = [n, v]) ∧
    (((∃ msg, parse_requirements_txt ["requests==2.31.0", "bad !!"] = .error msg) ↔
      (∃ l ∈ ["requests==2.31.0", "bad !!"],
        ((cleanupLine l.data).isEmpty ||
          (cleanupLine l.data).head? == some '-') = false ∧
        reqMatch (pyStrip (subHash (cleanupLine l.data))) = none)) ∧
    (∀ msg, parse_requirements_txt ["requests==2.31.0", "bad !!"] = .error msg →
      ∃ l ∈ ["requests==2.31.0", "bad !!"],
        ((cleanupLine l.data).isEmpty ||
          (cleanupLine l.data).head? == some '-') = false ∧
        reqMatch (pyStrip (subHash (cleanupLine l.data))) = none ∧
        msg = invalidLineMsg (pyStrip (subHash (cleanupLine l.data))))) := by
  have hsp : ∀ l ∈ ["requests==2.31.0", "bad !!"], ∀ g1 g2,
      reqMatch (pyStrip (subHash (cleanupLine l.data))) = some (g1, g2) →
      ∃ n v, splitEqEq g1 = [n, v] := by
    intro l hl g1 g2 h
    rcases List.mem_cons.mp hl with rfl | hl2
    · have hc : reqMatch (pyStrip (subHash (cleanupLine "requests==2.31.0".data))) =
          some ("requests==2.31.0".data, none) := by rfl
      rw [hc] at h
      obtain ⟨rfl, _⟩ := Prod.mk.injEq .. ▸ Option.some_injective _ h
      exact ⟨"requests".data, "2.31.0".data, by rfl⟩
    · rcases List.mem_cons.mp hl2 with rfl | hl3
      · have hc : reqMatch (pyStrip (subHash (cleanupLine "bad !!".data))) = none := by
          rfl
        rw [hc] at h
        exact Option.noConfusion h
      · exact absurd hl3 (List.not_mem_nil l)
  exact ⟨hsp, req_parse_error_iff ["requests==2.31.0", "bad !!"] hsp⟩

/-! ### Lemmas about the cleanup pipeline of the requirements parser -/

theorem takeWhile_eq_self_of (p : Char → Bool) (l : List Char)
    (h : ∀ c ∈ l, p c = true) : l.takeWhile p = l := by
  induction l with
  | nil => rfl
  | cons c cs ih =>
    rw [List.takeWhile_cons, if_pos (h c (List.mem_cons_self _ _))]
    rw [ih (fun c hc => h c (List.mem_cons_of_mem _ hc))]

theorem takeWhile_append_all (p : Char → Bool) (a b : List Char)
    (h : ∀ c ∈ a, p c = true) : (a ++ b).takeWhile p = a ++ b.takeWhile p := by
  induction a with
  | nil => rfl
  | cons c cs ih =>
    rw [List.cons_append, List.takeWhile_cons, if_pos (h c (List.mem_cons_self _ _)),
      ih (fun c hc => h c (List.mem_cons_of_mem _ hc)), List.cons_append]

theorem takeWhile_head_false (p : Char → Bool) (b : List Char)
    (h : ∀ c, b.head? = some c → p c = false) : b.takeWhile p = [] := by
  cases b with
  | nil => rfl
  | cons c cs =>
    rw [List.takeWhile_cons, if_neg]
    rw [h c rfl]
    exact Bool.false_ne_true

theorem dropWhile_eq_self_of (p : Char → Bool) (l : List Char)
    (h : ∀ c, l.head? = some c → p c = false) : l.dropWhile p = l := by
  cases l with
  | nil => rfl
  | cons c cs =>
    rw [List.dropWhile_cons, if_neg]
    rw [h c rfl]
    exact Bool.false_ne_true

theorem pyStrip_eq_self (l : List Char)
    (h1 : ∀ c, l.head? = some c → isPyWs c = false)
    (h2 : ∀ c, l.getLast? = some c → isPyWs c = false) : pyStrip l = l := by
  unfold pyStrip
  rw [dropWhile_eq_self_of _ _ h1, dropWhile_eq_self_of, List.reverse_reverse]
  intro c hc
  rw [List.head?_reverse] at hc
  exact h2 c hc

theorem hashLit_not_ws : ∀ c ∈ hashLit, isPyWs c = false := by decide

theorem matchHashAt_some_lt (l r : List Char) (h : matchHashAt l = some r) :
    r.length < l.length := by
  unfold matchHashAt at h
  by_cases h1 : (l.dropWhile isPyWs).take 7 = hashLit
  · rw [if_pos h1] at h
    by_cases h2 : (((l.dropWhile isPyWs).drop 7).takeWhile (fun c => !isPyWs c)).isEmpty
    · rw [if_pos h2] at h
      exact Option.noConfusion h
    · rw [if_neg h2] at h
      have hr := Option.some_injective _ h
      have hd : (l.dropWhile isPyWs).length ≤ l.length :=
        (List.dropWhile_suffix isPyWs).length_le
      have h7 : 7 ≤ (l.dropWhile isPyWs).length := by
        have hc := congrArg List.length h1
        rw [List.length_take] at hc
        have h77 : hashLit.length = 7 := rfl
        rw [h77] at hc
        omega
      have hne : ((l.dropWhile isPyWs).drop 7).takeWhile (fun c => !isPyWs c) ≠ [] := by
        intro hc
        rw [hc] at h2
        exact h2 rfl
      have hpos : 0 <
          (((l.dropWhile isPyWs).drop 7).takeWhile (fun c => !isPyWs c)).length :=
        List.length_pos.mpr hne
      have hr2 : r.length = ((l.dropWhile isPyWs).drop 7).length -
          (((l.dropWhile isPyWs).drop 7).takeWhile (fun c => !isPyWs c)).length := by
        rw [← hr, List.length_drop]
      have hdl : ((l.dropWhile isPyWs).drop 7).length =
          (l.dropWhile isPyWs).length - 7 := List.length_drop _ _
      omega
  · rw [if_neg h1] at h
    exact Option.noConfusion h

theorem subHashAux_congr : ∀ f1 f2 l, l.length ≤ f1 → l.length ≤ f2 →
    subHashAux f1 l = subHashAux f2 l := by
  intro f1
  induction f1 with
  | zero =>
    intro f2 l h1 _
    have : l = [] := List.eq_nil_of_length_eq_zero (by omega)
    subst this
    cases f2 <;> rfl
  | succ f1 ih =>
    intro f2 l h1 h2
    cases l with
    | nil => cases f2 <;> rfl
    | cons c cs =>
      cases f2 with
      | zero => simp at h2
      | succ f2 =>
        show (match matchHashAt (c :: cs) with
          | some rest => subHashAux f1 rest
          | none => c :: subHashAux f1 cs) =
          (match matchHashAt (c :: cs) with
          | some rest => subHashAux f2 rest
          | none => c :: subHashAux f2 cs)
        cases hm : matchHashAt (c :: cs) with
        | some rest =>
          have := matchHashAt_some_lt _ _ hm
          simp only [List.length_cons] at this h1 h2
          exact ih f2 rest (by omega) (by omega)
        | none =>
          simp only [List.length_cons] at h1 h2
          rw [ih f2 cs (by omega) (by omega)]

theorem subHash_cons_match (c : Char) (cs rest : List Char)
    (h : matchHashAt (c :: cs) = some rest) : subHash (c :: cs) = subHash rest := by
  unfold subHash
  have hlt := matchHashAt_some_lt _ _ h
  show (match matchHashAt (c :: cs) with
    | some rest => subHashAux (c :: cs).length.pred rest
    | none => c :: subHashAux (c :: cs).length.pred cs) = subHashAux rest.length rest
  rw [h]
  exact subHashAux_congr _ _ rest (by simp at hlt ⊢; omega) (le_refl _)

theorem subHash_cons_nomatch (c : Char) (cs : List Char)
    (h : matchHashAt (c :: cs) = none) : subHash (c :: cs) = c :: subHash cs := by
  unfold subHash
  show (match matchHashAt (c :: cs) with
    | some rest => subHashAux (c :: cs).length.pred rest
    | none => c :: subHashAux (c :: cs).length.pred cs) = c :: subHashAux cs.length cs
  rw [h]
  rfl

theorem matchHashAt_none_of_no_hash (l : List Char) (h : ¬ hashLit <:+: l) :
    matchHashAt l = none := by
  unfold matchHashAt
  by_cases h1 : (l.dropWhile isPyWs).take 7 = hashLit
  · exfalso
    apply h
    have hpre : hashLit <+: l.dropWhile isPyWs := h1 ▸ List.take_prefix 7 _
    exact hpre.isInfix.trans (List.dropWhile_suffix isPyWs).isInfix
  · rw [if_neg h1]

theorem subHash_id_of_no_hash (l : List Char) (h : ¬ hashLit <:+: l) :
    subHash l = l := by
  induction l with
  | nil => rfl
  | cons c cs ih =>
    rw [subHash_cons_nomatch c cs (matchHashAt_none_of_no_hash _ h)]
    rw [ih (fun hc => h (hc.trans (List.suffix_cons c cs).isInfix))]

theorem matchHashAt_append_none (nv rest : List Char) (hne : nv ≠ [])
    (hws : ∀ c ∈ nv, isPyWs c = false) (hinf : ¬ hashLit <:+: nv)
    (hrest : rest = [] ∨ ∃ c cs, rest = c :: cs ∧ isPyWs c = true) :
    matchHashAt (nv ++ rest) = none := by
  unfold matchHashAt
  have hdw : (nv ++ rest).dropWhile isPyWs = nv ++ rest := by
    apply dropWhile_eq_self_of
    intro c hc
    rcases nv with _ | ⟨c0, nv'⟩
    · exact absurd rfl hne
    · rw [List.cons_append] at hc
      have hceq : c0 = c := Option.some_injective _ hc
      exact hceq ▸ hws c0 (List.mem_cons_self _ _)
  rw [hdw]
  by_cases heq : (nv ++ rest).take 7 = hashLit
  · exfalso
    by_cases hlen : 7 ≤ nv.length
    · apply hinf
      have : (nv ++ rest).take 7 = nv.take 7 := List.take_append_of_le_length hlen
      rw [this] at heq
      exact (heq ▸ List.take_prefix 7 nv).isInfix
    · have hsplit : (nv ++ rest).take 7 = nv ++ rest.take (7 - nv.length) := by
        rw [List.take_append_eq_append_take, List.take_of_length_le (by omega)]
      rw [hsplit] at heq
      rcases hrest with rfl | ⟨c, cs, rfl, hcws⟩
      · have : nv.length = 7 := by
          have := congrArg List.length heq
          simp only [List.length_append, List.length_take] at this
          have h77 : hashLit.length = 7 := rfl
          rw [h77] at this
          simp at this
          omega
        omega
      · have hc : c ∈ hashLit := by
          rcases htk : (7 - nv.length) with _ | k
          · omega
          · rw [← heq, htk, List.take_succ_cons]
            exact List.mem_append_right nv (List.mem_cons_self _ _)
        rw [hashLit_not_ws c hc] at hcws
        exact Bool.noConfusion hcws
  · rw [if_neg heq]

theorem subHash_append_eq (nv rest : List Char)
    (hws : ∀ c ∈ nv, isPyWs c = false) (hinf : ¬ hashLit <:+: nv)
    (hrest : rest = [] ∨ ∃ c cs, rest = c :: cs ∧ isPyWs c = true) :
    subHash (nv ++ rest) = nv ++ subHash rest := by
  induction nv with
  | nil => rfl
  | cons c0 nv' ih =>
    rw [List.cons_append,
      subHash_cons_nomatch c0 (nv' ++ rest)
        (by
          rw [← List.cons_append]
          exact matchHashAt_append_none (c0 :: nv') rest (by simp) hws hinf hrest),
      ih (fun c hc => hws c (List.mem_cons_of_mem _ hc))
        (fun hc => hinf (hc.trans (List.suffix_cons c0 nv').isInfix)),
      List.cons_append]

theorem matchHashAt_frag (tok rest : List Char) (ht : tok ≠ [])
    (htws : ∀ c ∈ tok, isPyWs c = false)
    (hrest : rest = [] ∨ ∃ c cs, rest = c :: cs ∧ isPyWs c = true) :
    matchHashAt (hashFrag tok ++ rest) = some rest := by
  have hdw : ((' ' :: (hashLit ++ tok)) ++ rest).dropWhile isPyWs =
      hashLit ++ (tok ++ rest) := by
    rw [List.cons_append, List.dropWhile_cons]
    rw [if_pos (by decide), List.append_assoc]
    apply dropWhile_eq_self_of
    intro c hc
    rw [List.head?_append_of_ne_nil hashLit (by decide)] at hc
    have hcm : c = '-' := by
      have h0 : hashLit.head? = some '-' := rfl
      rw [h0] at hc
      exact (Option.some_injective _ hc).symm
    rw [hcm]
    decide
  have htake : (hashLit ++ (tok ++ rest)).take 7 = hashLit := by
    rw [List.take_append_eq_append_take, List.take_of_length_le (by decide),
      show hashLit.length = 7 from rfl]
    simp
  have hdrop : (hashLit ++ (tok ++ rest)).drop 7 = tok ++ rest := by
    rw [show (7 : Nat) = hashLit.length from rfl, List.drop_left]
  have htw : (tok ++ rest).takeWhile (fun c => !isPyWs c) = tok := by
    rw [takeWhile_append_all _ _ _ (fun c hc => by rw [htws c hc]; rfl),
      takeWhile_head_false _ _ ?_, List.append_nil]
    intro c hc
    rcases hrest with rfl | ⟨c0, cs, rfl, hcws⟩
    · exact Option.noConfusion hc
    · have hc0 : c0 = c := Option.some_injective _ hc
      rw [← hc0, hcws]
      rfl
  unfold matchHashAt hashFrag
  rw [hdw]
  simp only []
  rw [if_pos htake, hdrop, htw,
    if_neg (fun h => ht (List.isEmpty_iff.mp h)), List.drop_left]

theorem subHash_frag (tok rest : List Char) (ht : tok ≠ [])
    (htws : ∀ c ∈ tok, isPyWs c = false)
    (hrest : rest = [] ∨ ∃ c cs, rest = c :: cs ∧ isPyWs c = true) :
    subHash (hashFrag tok ++ rest) = subHash rest := by
  rw [show hashFrag tok ++ rest = ' ' :: ((hashLit ++ tok) ++ rest) from rfl]
  exact subHash_cons_match _ _ _
    (by rw [← List.cons_append]; exact matchHashAt_frag tok rest ht htws hrest)

theorem subHash_frags (hs : List (List Char)) (tail : List Char)
    (hall : ∀ t ∈ hs, t ≠ [] ∧ ∀ c ∈ t, isPyWs c = false)
    (htail : tail = [] ∨ ∃ c cs, tail = c :: cs ∧ isPyWs c = true) :
    subHash (hs.flatMap hashFrag ++ tail) = subHash tail := by
  induction hs with
  | nil => rfl
  | cons t hs' ih =>
    rw [List.flatMap_cons, List.append_assoc,
      subHash_frag t _ (hall t (List.mem_cons_self _ _)).1
        (hall t (List.mem_cons_self _ _)).2 ?_,
      ih (fun t ht => hall t (List.mem_cons_of_mem _ ht))]
    rcases hs' with _ | ⟨t2, hs''⟩
    · simpa using htail
    · right
      refine ⟨' ', (hashLit ++ t2) ++ (hs''.flatMap hashFrag ++ tail), ?_, by decide⟩
      rw [List.flatMap_cons]
      simp [hashFrag, List.append_assoc]

theorem tailOk_cons_false (c : Char) (l : List Char) (hw : isPyWs c = false)
    (hs : c ≠ ';') : tailOk (c :: l) = false := by
  unfold tailOk
  rw [dropWhile_eq_self_of _ _ (fun c2 hc2 => (Option.some_injective _ hc2) ▸ hw)]
  simp [hs]

theorem lazyVerAux_run (mpart : List Char) (hmp : tailOk mpart = true) :
    ∀ ver acc, (∀ c ∈ ver, isPyWs c = false ∧ c ≠ ';') →
      lazyVerAux acc (ver ++ mpart) = some (acc ++ ver, mpart) := by
  intro ver
  induction ver with
  | nil =>
    intro acc _
    rw [List.nil_append, List.append_nil]
    cases mpart with
    | nil => rfl
    | cons c cs =>
      unfold lazyVerAux
      rw [if_pos hmp]
  | cons c cs ih =>
    intro acc hv
    rw [List.cons_append]
    unfold lazyVerAux
    rw [if_neg (by
        rw [tailOk_cons_false c _ (hv c (List.mem_cons_self _ _)).1
          (hv c (List.mem_cons_self _ _)).2]
        exact Bool.false_ne_true),
      if_neg (by
        rw [(hv c (List.mem_cons_self _ _)).1]
        exact Bool.false_ne_true),
      ih (acc ++ [c]) (fun c2 hc2 => hv c2 (List.mem_cons_of_mem _ hc2)),
      List.append_assoc]
    rfl

theorem matchVerMarker_run (ver mpart : List Char) (hv : ver ≠ [])
    (hvc : ∀ c ∈ ver, isPyWs c = false ∧ c ≠ ';') (hmp : tailOk mpart = true) :
    matchVerMarker (ver ++ mpart) = some (ver, mpart) := by
  cases ver with
  | nil => exact absurd rfl hv
  | cons c cs =>
    rw [List.cons_append]
    show (if isPyWs c = true then none
      else lazyVerAux [c] (cs ++ mpart)) = some (c :: cs, mpart)
    rw [if_neg (by
        rw [(hvc c (List.mem_cons_self _ _)).1]
        exact Bool.false_ne_true),
      lazyVerAux_run mpart hmp cs [c]
        (fun c2 hc2 => hvc c2 (List.mem_cons_of_mem _ hc2))]
    rfl

theorem nameClassChar_ne (c : Char) (x : Char) (h : nameClassChar c = true)
    (hx : nameClassChar x = false) : c ≠ x := by
  intro hc
  rw [hc, hx] at h
  exact Bool.noConfusion h

theorem isPyWs_cases (c : Char) (h : isPyWs c = true) :
    c = ' ' ∨ c = '\t' ∨ c = '\n' ∨ c = '\r' ∨ c = '\x0b' ∨ c = '\x0c' := by
  unfold isPyWs at h
  rcases Bool.or_eq_true_iff.mp h with h1 | h6
  rotate_left
  · exact Or.inr (Or.inr (Or.inr (Or.inr (Or.inr (by simpa using h6)))))
  rcases Bool.or_eq_true_iff.mp h1 with h1 | h5
  rotate_left
  · exact Or.inr (Or.inr (Or.inr (Or.inr (Or.inl (by simpa using h5)))))
  rcases Bool.or_eq_true_iff.mp h1 with h1 | h4
  rotate_left
  · exact Or.inr (Or.inr (Or.inr (Or.inl (by simpa using h4))))
  rcases Bool.or_eq_true_iff.mp h1 with h1 | h3
  rotate_left
  · exact Or.inr (Or.inr (Or.inl (by simpa using h3)))
  rcases Bool.or_eq_true_iff.mp h1 with h1 | h2
  · exact Or.inl (by simpa using h1)
  · exact Or.inr (Or.inl (by simpa using h2))

theorem nameClassChar_not_ws (c : Char) (h : nameClassChar c = true) :
    isPyWs c = false := by
  by_cases hw : isPyWs c = true
  · exfalso
    rcases isPyWs_cases c hw with rfl | rfl | rfl | rfl | rfl | rfl <;>
      exact Bool.noConfusion h
  · exact Bool.not_eq_true _ ▸ hw

theorem reqMatch_run (name ver mpart : List Char) (hn : name ≠ [])
    (hnc : ∀ c ∈ name, nameClassChar c = true) (hv : ver ≠ [])
    (hvc : ∀ c ∈ ver, isPyWs c = false ∧ c ≠ ';') (hmp : tailOk mpart = true) :
    reqMatch (name ++ '=' :: '=' :: (ver ++ mpart)) =
      some (name ++ '=' :: '=' :: ver,
        if mpart.isEmpty then none else some mpart) := by
  have htw : (name ++ '=' :: '=' :: (ver ++ mpart)).takeWhile nameClassChar = name := by
    rw [takeWhile_append_all _ _ _ hnc, takeWhile_head_false, List.append_nil]
    intro c hc
    have hec : '=' = c := Option.some_injective _ hc
    rw [← hec]
    rfl
  unfold reqMatch
  simp only []
  rw [htw, if_neg (fun h => hn (List.isEmpty_iff.mp h)), List.drop_left]
  simp only [reqMatchTail]
  rw [if_neg (by decide)]
  simp only [reqMatchAfterName]
  rw [if_pos (by simp), matchVerMarker_run ver mpart hv hvc hmp]

theorem splitEqEqAux_no_pair : ∀ (b : List Char) (acc : List Char),
    (¬ ('=' :: '=' :: ([] : List Char)) <:+: b) →
      splitEqEqAux acc b = [acc.reverse ++ b] := by
  intro b
  induction b with
  | nil =>
    intro acc _
    rw [List.append_nil]
    rfl
  | cons c rest ih =>
    intro acc hb
    cases rest with
    | nil =>
      show [(c :: acc).reverse] = [acc.reverse ++ [c]]
      rw [List.reverse_cons]
    | cons c2 rest2 =>
      show (if c = '=' ∧ c2 = '=' then acc.reverse :: splitEqEqAux [] rest2
        else splitEqEqAux (c :: acc) (c2 :: rest2)) = [acc.reverse ++ c :: c2 :: rest2]
      rw [if_neg, ih (c :: acc)
        (fun hc => hb (hc.trans ((List.suffix_cons c (c2 :: rest2)).isInfix)))]
      · rw [List.reverse_cons, List.append_assoc]
        rfl
      · rintro ⟨rfl, rfl⟩
        exact hb ⟨[], rest2, rfl⟩

theorem splitEqEqAux_junction : ∀ (a : List Char) (acc b : List Char),
    (∀ c ∈ a, c ≠ '=') → (¬ ('=' :: '=' :: ([] : List Char)) <:+: b) →
      splitEqEqAux acc (a ++ '=' :: '=' :: b) = [acc.reverse ++ a, b] := by
  intro a
  induction a with
  | nil =>
    intro acc b _ hb
    show (if ('=' : Char) = '=' ∧ ('=' : Char) = '=' then
        acc.reverse :: splitEqEqAux [] b
      else splitEqEqAux ('=' :: acc) ('=' :: b)) = [acc.reverse ++ [], b]
    rw [if_pos ⟨rfl, rfl⟩, splitEqEqAux_no_pair b [] hb, List.append_nil]
    rfl
  | cons c a' ih =>
    intro acc b ha hb
    cases a' with
    | nil =>
      show (if c = '=' ∧ ('=' : Char) = '=' then
          acc.reverse :: splitEqEqAux [] ('=' :: b)
        else splitEqEqAux (c :: acc) ('=' :: '=' :: b)) = [acc.reverse ++ [c], b]
      rw [if_neg (fun hc => ha c (List.mem_cons_self _ _) hc.1)]
      have h2 := ih (c :: acc) b (fun x hx => absurd hx (List.not_mem_nil x)) hb
      rw [List.nil_append] at h2
      rw [h2, List.reverse_cons, List.append_assoc]
      rfl
    | cons c2 a'' =>
      show (if c = '=' ∧ c2 = '=' then
          acc.reverse :: splitEqEqAux [] (a'' ++ '=' :: '=' :: b)
        else splitEqEqAux (c :: acc) (c2 :: (a'' ++ '=' :: '=' :: b))) =
        [acc.reverse ++ c :: c2 :: a'', b]
      rw [if_neg (fun hc => ha c (List.mem_cons_self _ _) hc.1)]
      have h2 := ih (c :: acc) b (fun x hx => ha x (List.mem_cons_of_mem _ hx)) hb
      rw [List.cons_append] at h2
      rw [h2, List.reverse_cons, List.append_assoc]
      rfl

theorem splitEqEq_junction (a b : List Char) (ha : ∀ c ∈ a, c ≠ '=')
    (hb : ¬ ('=' :: '=' :: ([] : List Char)) <:+: b) :
    splitEqEq (a ++ '=' :: '=' :: b) = [a, b] := by
  unfold splitEqEq
  rw [splitEqEqAux_junction a [] b ha hb]
  rfl

theorem getLast?_append_of_ne_nil (l1 l2 : List Char) (h : l2 ≠ []) :
    (l1 ++ l2).getLast? = l2.getLast? := by
  rw [List.getLast?_append]
  cases hl : l2.getLast? with
  | none => exact absurd (List.getLast?_eq_none_iff.mp hl) h
  | some c => rfl

theorem processMarkers_run (m : List Char) (hm : m ≠ [])
    (hmH : ∀ c, m.head? = some c → isPyWs c = false ∧ c ≠ ';')
    (hmL : ∀ c, m.getLast? = some c → isPyWs c = false) :
    processMarkers (some (' ' :: ';' :: ' ' :: m)) = some (String.mk m) := by
  show some (String.mk (pyStrip ((pyStrip (' ' :: ';' :: ' ' :: m)).dropWhile
      (fun c => c == ';' || c == ' ')))) = some (String.mk m)
  have hstrip1 : pyStrip (' ' :: ';' :: ' ' :: m) = ';' :: ' ' :: m := by
    unfold pyStrip
    have hdl : (' ' :: ';' :: ' ' :: m).dropWhile isPyWs = ';' :: ' ' :: m := by
      rw [List.dropWhile_cons, if_pos (by decide), List.dropWhile_cons,
        if_neg (by decide)]
    rw [hdl, dropWhile_eq_self_of, List.reverse_reverse]
    intro c hc
    rw [List.head?_reverse] at hc
    rw [show (';' :: ' ' :: m) = [';', ' '] ++ m from rfl,
      getLast?_append_of_ne_nil _ _ hm] at hc
    exact hmL c hc
  rw [hstrip1]
  have hdrop : (';' :: ' ' :: m).dropWhile (fun c => c == ';' || c == ' ') = m := by
    rw [List.dropWhile_cons, if_pos (by decide), List.dropWhile_cons,
      if_pos (by decide)]
    apply dropWhile_eq_self_of
    intro c hc
    obtain ⟨hws, hsemi⟩ := hmH c hc
    have hsp : c ≠ ' ' := by
      intro hc2
      rw [hc2] at hws
      exact Bool.noConfusion hws
    simp [hsemi, hsp]
  rw [hdrop, pyStrip_eq_self m (fun c hc => (hmH c hc).1) hmL]


theorem parse_single (raw : List Char) (d : Dependency)
    (h : parseReqLine raw = .ok (some d)) :
    parse_requirements_txt [String.mk raw] = .ok [d] := by
  simp only [parse_requirements_txt]
  rw [h]

theorem parseReqLine_of_parts (raw s name ver : List Char) (g2 : Option (List Char))
    (hclean : cleanupLine raw = s)
    (hne : s.isEmpty = false)
    (hhd : (s.head? == some '-') = false)
    (hmatch : reqMatch (pyStrip (subHash s)) = some (name ++ '=' :: '=' :: ver, g2))
    (hsplit : splitEqEq (name ++ '=' :: '=' :: ver) = [name, ver]) :
    parseReqLine raw =
      .ok (some ⟨String.mk name, String.mk ver, processMarkers g2⟩) := by
  unfold parseReqLine
  rw [hclean, if_neg (by rw [hne, hhd]; exact Bool.noConfusion)]
  simp only []
  rw [hmatch]
  show unpackPieces g2 (splitEqEq (name ++ '=' :: '=' :: ver)) =
    .ok (some ⟨String.mk name, String.mk ver, processMarkers g2⟩)
  rw [hsplit]
  rfl

theorem hashLit_infix_marker (m : List Char)
    (h : hashLit <:+: (' ' :: ';' :: ' ' :: m)) : hashLit <:+: m := by
  rcases h with ⟨s, t, hst⟩
  rcases s with _ | ⟨c1, s1⟩
  · rw [List.nil_append] at hst
    have h1 := congrArg List.head? hst
    rw [List.head?_append_of_ne_nil _ (by decide),
      show (' ' :: ';' :: ' ' :: m).head? = some ' ' from rfl] at h1
    exact absurd h1 (by decide)
  · rcases s1 with _ | ⟨c2, s2⟩
    · simp only [List.cons_append, List.nil_append, List.cons.injEq] at hst
      have h1 := congrArg List.head? hst.2
      rw [List.head?_append_of_ne_nil _ (by decide),
        show (';' :: ' ' :: m).head? = some ';' from rfl] at h1
      exact absurd h1 (by decide)
    · rcases s2 with _ | ⟨c3, s3⟩
      · simp only [List.cons_append, List.nil_append, List.cons.injEq] at hst
        have h1 := congrArg List.head? hst.2.2
        rw [List.head?_append_of_ne_nil _ (by decide),
          show (' ' :: m).head? = some ' ' from rfl] at h1
        exact absurd h1 (by decide)
      · simp only [List.cons_append, List.cons.injEq] at hst
        exact ⟨s3, t, hst.2.2.2⟩

theorem cleanupLine_eq_self (l : List Char)
    (h1 : ∀ c ∈ l, c ≠ '#' ∧ c ≠ '\\')
    (h2 : ∀ c, l.head? = some c → isPyWs c = false)
    (h3 : ∀ c, l.getLast? = some c → isPyWs c = false) : cleanupLine l = l := by
  unfold cleanupLine
  have ha : List.takeWhile (fun c => c != '#') l = l :=
    takeWhile_eq_self_of _ _ (fun c hc => by
      show (c != '#') = true
      rw [bne_iff_ne]
      exact (h1 c hc).1)
  have hb : List.takeWhile (fun c => c != '\\') l = l :=
    takeWhile_eq_self_of _ _ (fun c hc => by
      show (c != '\\') = true
      rw [bne_iff_ne]
      exact (h1 c hc).2)
  rw [ha, hb, pyStrip_eq_self l h2 h3]

theorem pyStrip_right_ws (l : List Char) (w : Char) (hl : l ≠ [])
    (hh : ∀ c, l.head? = some c → isPyWs c = false)
    (hlast : ∀ c, l.getLast? = some c → isPyWs c = false)
    (hw : isPyWs w = true) : pyStrip (l ++ [w]) = l := by
  unfold pyStrip
  have h1 : List.dropWhile isPyWs (l ++ [w]) = l ++ [w] :=
    dropWhile_eq_self_of _ _ (by
      intro c hc
      rw [List.head?_append_of_ne_nil _ hl] at hc
      exact hh c hc)
  have h2 : List.dropWhile isPyWs l.reverse = l.reverse :=
    dropWhile_eq_self_of _ _ (by
      intro c hc
      rw [List.head?_reverse] at hc
      exact hlast c hc)
  rw [h1, List.reverse_append, List.reverse_singleton, List.singleton_append,
    List.dropWhile_cons, if_pos hw, h2, List.reverse_reverse]


theorem hashLit_chars : ∀ c ∈ hashLit, c ≠ '#' ∧ c ≠ '\\' := by decide

theorem mem_flatMap_hashFrag (hs : List (List Char)) (c : Char)
    (h : c ∈ hs.flatMap hashFrag) :
    c = ' ' ∨ c ∈ hashLit ∨ ∃ t ∈ hs, c ∈ t := by
  rw [List.mem_flatMap] at h
  rcases h with ⟨t, ht, hc⟩
  unfold hashFrag at hc
  rcases List.mem_cons.mp hc with rfl | hc
  · exact Or.inl rfl
  · rcases List.mem_append.mp hc with hc | hc
    · exact Or.inr (Or.inl hc)
    · exact Or.inr (Or.inr ⟨t, ht, hc⟩)

theorem flatMap_hashFrag_ne_nil (hs : List (List Char)) (h : hs ≠ []) :
    hs.flatMap hashFrag ≠ [] := by
  rcases hs with _ | ⟨t, hs2⟩
  · exact absurd rfl h
  · rw [List.flatMap_cons, show hashFrag t = ' ' :: (hashLit ++ t) from rfl,
      List.cons_append]
    exact List.cons_ne_nil _ _

theorem getLast_flatMap_hashFrag (hs : List (List Char))
    (hall : ∀ t ∈ hs, t ≠ [] ∧ ∀ c ∈ t, isPyWs c = false) :
    ∀ c, (hs.flatMap hashFrag).getLast? = some c → isPyWs c = false := by
  induction hs with
  | nil =>
    intro c hcl
    exact Option.noConfusion hcl
  | cons t hs2 ih =>
    intro c hcl
    rw [List.flatMap_cons] at hcl
    rcases hemp : hs2.flatMap hashFrag with _ | ⟨x, xs⟩
    · rw [hemp, List.append_nil,
        show hashFrag t = (' ' :: hashLit) ++ t from rfl,
        getLast?_append_of_ne_nil _ _ (hall t (List.mem_cons_self _ _)).1] at hcl
      exact (hall t (List.mem_cons_self _ _)).2 c (List.mem_of_getLast?_eq_some hcl)
    · rw [hemp, getLast?_append_of_ne_nil _ _ (List.cons_ne_nil _ _)] at hcl
      apply ih (fun t2 ht2 => hall t2 (List.mem_cons_of_mem _ ht2)) c
      rw [hemp]
      exact hcl

/-- C7: a pinned-requirements line built as `name==version`, one or more
` --hash=<token>` fragments, and an optional trailing ` ; <marker>` clause,
parses to the single record `name==version` whose markers field is exactly
the marker text: every hash fragment is removed and the marker preserved;
with no marker clause the record has no marker. A line whose text after a
space and a backslash is arbitrary (for instance holding only hash
fragments on the continued physical line) also yields the bare record with
no marker, because everything from the backslash on is cut before
matching. The hypotheses spell out the shape: a nonempty class-conformant
name not starting with `-`; a nonempty version free of whitespace, `;`, a
second `==` and not forming a `--hash=` occurrence with the name; nonempty
whitespace-free hash tokens; and a marker that is nonempty, neither starts
with whitespace or `;` nor ends with whitespace, and holds no `--hash=`
occurrence; no component holds `#` or a backslash. -/
theorem req_hash_stripped_markers_preserved
    (name ver m rest : List Char) (hs : List (List Char))
    (hn : name ≠ []) (hnc : ∀ c ∈ name, nameClassChar c = true)
    (hnH : name.head? ≠ some '-')
    (hv : ver ≠ []) (hvW : ∀ c ∈ ver, isPyWs c = false)
    (hvS : ∀ c ∈ ver, c ≠ ';')
    (hvP : ∀ c ∈ ver, c ≠ '#' ∧ c ≠ '\\')
    (hvE : ¬ ('=' :: '=' :: ([] : List Char)) <:+: ver)
    (hnv : ¬ hashLit <:+: (name ++ '=' :: '=' :: ver))
    (hhs : hs ≠ [])
    (htok : ∀ t ∈ hs, t ≠ [] ∧ ∀ c ∈ t, isPyWs c = false ∧ c ≠ '#' ∧ c ≠ '\\')
    (hm : m ≠ []) (hmH : ∀ c, m.head? = some c → isPyWs c = false ∧ c ≠ ';')
    (hmL : ∀ c, m.getLast? = some c → isPyWs c = false)
    (hmP : ∀ c ∈ m, c ≠ '#' ∧ c ≠ '\\')
    (hmI : ¬ hashLit <:+: m) :
    parse_requirements_txt [String.mk ((name ++ '=' :: '=' :: ver) ++
        hs.flatMap hashFrag ++ (' ' :: ';' :: ' ' :: m))] =
      .ok [⟨String.mk name, String.mk ver, some (String.mk m)⟩] ∧
    parse_requirements_txt [String.mk ((name ++ '=' :: '=' :: ver) ++
        hs.flatMap hashFrag)] =
      .ok [⟨String.mk name, String.mk ver, none⟩] ∧
    parse_requirements_txt [String.mk ((name ++ '=' :: '=' :: ver) ++
        ' ' :: '\\' :: rest)] =
      .ok [⟨String.mk name, String.mk ver, none⟩] := by
  rcases hc0 : name with _ | ⟨c0, name2⟩
  · exact absurd hc0 hn
  rw [← hc0]
  have hnhead : name.head? = some c0 := by rw [hc0]; rfl
  have hc0ne : c0 ≠ '-' := by
    intro hcc
    rw [hcc] at hnhead
    exact hnH hnhead
  have hc0cls : nameClassChar c0 = true :=
    hnc c0 (by rw [hc0]; exact List.mem_cons_self _ _)
  have hnvne : name ++ '=' :: '=' :: ver ≠ [] := by
    rw [hc0]
    exact List.cons_ne_nil _ _
  have hnvhead : (name ++ '=' :: '=' :: ver).head? = some c0 := by
    rw [List.head?_append_of_ne_nil _ hn, hnhead]
  have hnvws : ∀ c ∈ name ++ '=' :: '=' :: ver, isPyWs c = false := by
    intro c hcmem
    rcases List.mem_append.mp hcmem with h | h
    · exact nameClassChar_not_ws c (hnc c h)
    · rcases List.mem_cons.mp h with rfl | h
      · rfl
      · rcases List.mem_cons.mp h with rfl | h
        · rfl
        · exact hvW c h
  have hnvsharp : ∀ c ∈ name ++ '=' :: '=' :: ver, c ≠ '#' ∧ c ≠ '\\' := by
    intro c hcmem
    rcases List.mem_append.mp hcmem with h | h
    · exact ⟨nameClassChar_ne c '#' (hnc c h) (by decide),
        nameClassChar_ne c '\\' (hnc c h) (by decide)⟩
    · rcases List.mem_cons.mp h with rfl | h
      · exact ⟨by decide, by decide⟩
      · rcases List.mem_cons.mp h with rfl | h
        · exact ⟨by decide, by decide⟩
        · exact hvP c h
  have hnvlast : ∀ c, (name ++ '=' :: '=' :: ver).getLast? = some c →
      isPyWs c = false := by
    intro c hcl
    rw [show ('=' :: '=' :: ver) = ['=', '='] ++ ver from rfl,
      ← List.append_assoc, getLast?_append_of_ne_nil _ _ hv] at hcl
    exact hvW c (List.mem_of_getLast?_eq_some hcl)
  have hheadws : ∀ (s : List Char), s.head? = some c0 →
      ∀ c, s.head? = some c → isPyWs c = false := by
    intro s hs0 c hsc
    rw [hs0] at hsc
    exact (Option.some_injective _ hsc) ▸ nameClassChar_not_ws c0 hc0cls
  have hbeqfalse : ∀ s : List Char, s.head? = some c0 →
      (s.head? == some '-') = false := by
    intro s hsh
    rw [hsh, beq_eq_false_iff_ne]
    intro hcc
    exact hc0ne (Option.some_injective _ hcc)
  have hsplitnv : splitEqEq (name ++ '=' :: '=' :: ver) = [name, ver] :=
    splitEqEq_junction name ver
      (fun c hcm => nameClassChar_ne c '=' (hnc c hcm) (by decide)) hvE
  have htok2 : ∀ t ∈ hs, t ≠ [] ∧ ∀ c ∈ t, isPyWs c = false :=
    fun t ht => ⟨(htok t ht).1, fun c hcm => ((htok t ht).2 c hcm).1⟩
  have hfragsne : hs.flatMap hashFrag ≠ [] := flatMap_hashFrag_ne_nil hs hhs
  have hfragshead : ∃ c cs, hs.flatMap hashFrag = c :: cs ∧ isPyWs c = true := by
    rcases hs with _ | ⟨t, hs2⟩
    · exact absurd rfl hhs
    · rw [List.flatMap_cons]
      exact ⟨' ', _, rfl, rfl⟩
  have hfragchars : ∀ c ∈ hs.flatMap hashFrag, c ≠ '#' ∧ c ≠ '\\' := by
    intro c h
    rcases mem_flatMap_hashFrag hs c h with rfl | h | ⟨t, ht, h⟩
    · exact ⟨by decide, by decide⟩
    · exact hashLit_chars c h
    · exact ((htok t ht).2 c h).2
  have hstripNv : pyStrip (name ++ '=' :: '=' :: ver) = name ++ '=' :: '=' :: ver :=
    pyStrip_eq_self _ (hheadws _ hnvhead) hnvlast
  have hmatchNv : reqMatch (name ++ '=' :: '=' :: ver) =
      some (name ++ '=' :: '=' :: ver, none) := by
    have h := reqMatch_run name ver [] hn hnc hv
      (fun c hcm => ⟨hvW c hcm, hvS c hcm⟩) rfl
    rw [List.append_nil] at h
    exact h.trans rfl
  refine ⟨?_, ?_, ?_⟩
  · -- line with hash fragments and a trailing marker clause
    have hheadA : ((name ++ '=' :: '=' :: ver) ++ hs.flatMap hashFrag ++
        (' ' :: ';' :: ' ' :: m)).head? = some c0 := by
      rw [List.append_assoc, List.head?_append_of_ne_nil _ hnvne]
      exact hnvhead
    have hcleanA : cleanupLine ((name ++ '=' :: '=' :: ver) ++ hs.flatMap hashFrag ++
        (' ' :: ';' :: ' ' :: m)) = (name ++ '=' :: '=' :: ver) ++
        hs.flatMap hashFrag ++ (' ' :: ';' :: ' ' :: m) := by
      apply cleanupLine_eq_self
      · intro c hcmem
        rcases List.mem_append.mp hcmem with h | h
        · rcases List.mem_append.mp h with h | h
          · exact hnvsharp c h
          · exact hfragchars c h
        · rcases List.mem_cons.mp h with rfl | h
          · exact ⟨by decide, by decide⟩
          · rcases List.mem_cons.mp h with rfl | h
            · exact ⟨by decide, by decide⟩
            · rcases List.mem_cons.mp h with rfl | h
              · exact ⟨by decide, by decide⟩
              · exact hmP c h
      · exact hheadws _ hheadA
      · intro c hcl
        rw [getLast?_append_of_ne_nil _ _ (List.cons_ne_nil _ _),
          show (' ' :: ';' :: ' ' :: m) = [' ', ';', ' '] ++ m from rfl,
          getLast?_append_of_ne_nil _ _ hm] at hcl
        exact hmL c hcl
    have hsubA : subHash ((name ++ '=' :: '=' :: ver) ++ hs.flatMap hashFrag ++
        (' ' :: ';' :: ' ' :: m)) = (name ++ '=' :: '=' :: ver) ++
        (' ' :: ';' :: ' ' :: m) := by
      rw [List.append_assoc,
        subHash_append_eq _ _ hnvws hnv (Or.inr (by
          rcases hfragshead with ⟨c, cs, heq, hws⟩
          exact ⟨c, cs ++ (' ' :: ';' :: ' ' :: m), by rw [heq]; rfl, hws⟩)),
        subHash_frags hs _ htok2 (Or.inr ⟨' ', ';' :: ' ' :: m, rfl, rfl⟩),
        subHash_id_of_no_hash _ (fun hinfx => hmI (hashLit_infix_marker m hinfx))]
    have hstripA : pyStrip ((name ++ '=' :: '=' :: ver) ++ (' ' :: ';' :: ' ' :: m)) =
        (name ++ '=' :: '=' :: ver) ++ (' ' :: ';' :: ' ' :: m) := by
      apply pyStrip_eq_self
      · exact hheadws _ (by
          rw [List.head?_append_of_ne_nil _ hnvne]
          exact hnvhead)
      · intro c hcl
        rw [getLast?_append_of_ne_nil _ _ (List.cons_ne_nil _ _),
          show (' ' :: ';' :: ' ' :: m) = [' ', ';', ' '] ++ m from rfl,
          getLast?_append_of_ne_nil _ _ hm] at hcl
        exact hmL c hcl
    have hfinA := parseReqLine_of_parts _ _ name ver (some (' ' :: ';' :: ' ' :: m))
      hcleanA (by rw [hc0]; rfl) (hbeqfalse _ hheadA)
      (by
        rw [hsubA, hstripA, show (name ++ '=' :: '=' :: ver) ++
            (' ' :: ';' :: ' ' :: m) =
            name ++ '=' :: '=' :: (ver ++ (' ' :: ';' :: ' ' :: m)) by simp]
        exact (reqMatch_run name ver (' ' :: ';' :: ' ' :: m) hn hnc hv
          (fun c hcm => ⟨hvW c hcm, hvS c hcm⟩) rfl).trans rfl)
      hsplitnv
    rw [processMarkers_run m hm hmH hmL] at hfinA
    exact parse_single _ _ hfinA
  · -- line with hash fragments and no marker clause
    have hheadB : ((name ++ '=' :: '=' :: ver) ++ hs.flatMap hashFrag).head? =
        some c0 := by
      rw [List.head?_append_of_ne_nil _ hnvne]
      exact hnvhead
    have hcleanB : cleanupLine ((name ++ '=' :: '=' :: ver) ++ hs.flatMap hashFrag) =
        (name ++ '=' :: '=' :: ver) ++ hs.flatMap hashFrag := by
      apply cleanupLine_eq_self
      · intro c hcmem
        rcases List.mem_append.mp hcmem with h | h
        · exact hnvsharp c h
        · exact hfragchars c h
      · exact hheadws _ hheadB
      · intro c hcl
        rw [getLast?_append_of_ne_nil _ _ hfragsne] at hcl
        exact getLast_flatMap_hashFrag hs htok2 c hcl
    have hsubB : subHash ((name ++ '=' :: '=' :: ver) ++ hs.flatMap hashFrag) =
        name ++ '=' :: '=' :: ver := by
      rw [subHash_append_eq _ _ hnvws hnv (Or.inr hfragshead),
        ← List.append_nil (hs.flatMap hashFrag),
        subHash_frags hs [] htok2 (Or.inl rfl),
        show subHash ([] : List Char) = [] from rfl, List.append_nil]
    have hfinB := parseReqLine_of_parts _ _ name ver none hcleanB
      (by rw [hc0]; rfl) (hbeqfalse _ hheadB)
      (by
        rw [hsubB, hstripNv]
        exact hmatchNv)
      hsplitnv
    exact parse_single _ _ hfinB
  · -- line cut at a backslash continuation
    have hcleanC : cleanupLine ((name ++ '=' :: '=' :: ver) ++ ' ' :: '\\' :: rest) =
        name ++ '=' :: '=' :: ver := by
      unfold cleanupLine
      have ht1 : List.takeWhile (fun c => c != '#')
          ((name ++ '=' :: '=' :: ver) ++ ' ' :: '\\' :: rest) =
          ((name ++ '=' :: '=' :: ver) ++ [' ']) ++
            ('\\' :: List.takeWhile (fun c => c != '#') rest) := by
        rw [show (name ++ '=' :: '=' :: ver) ++ ' ' :: '\\' :: rest =
            ((name ++ '=' :: '=' :: ver) ++ [' ', '\\']) ++ rest by simp,
          takeWhile_append_all _ _ _ (by
            intro c hcmem
            show (c != '#') = true
            rw [bne_iff_ne]
            rcases List.mem_append.mp hcmem with h | h
            · exact (hnvsharp c h).1
            · rcases List.mem_cons.mp h with rfl | h
              · decide
              · rcases List.mem_cons.mp h with rfl | h
                · decide
                · exact absurd h (List.not_mem_nil c))]
        simp
      rw [ht1]
      have ht2 : List.takeWhile (fun c => c != '\\')
          (((name ++ '=' :: '=' :: ver) ++ [' ']) ++
            ('\\' :: List.takeWhile (fun c => c != '#') rest)) =
          (name ++ '=' :: '=' :: ver) ++ [' '] := by
        rw [takeWhile_append_all _ _ _ (by
            intro c hcmem
            show (c != '\\') = true
            rw [bne_iff_ne]
            rcases List.mem_append.mp hcmem with h | h
            · exact (hnvsharp c h).2
            · rcases List.mem_cons.mp h with rfl | h
              · decide
              · exact absurd h (List.not_mem_nil c)),
          takeWhile_head_false _ _ (by
            intro c hch
            have h2 : some '\\' = some c := hch
            cases Option.some_injective _ h2
            decide),
          List.append_nil]
      rw [ht2, pyStrip_right_ws _ ' ' hnvne (hheadws _ hnvhead) hnvlast rfl]
    have hfinC := parseReqLine_of_parts _ _ name ver none hcleanC
      (by rw [hc0]; rfl) (hbeqfalse _ hnvhead)
      (by
        rw [subHash_id_of_no_hash _ hnv, hstripNv]
        exact hmatchNv)
      hsplitnv
    exact parse_single _ _ hfinC

/-- Concrete instantiation of the hash-stripping and marker-preserving
behaviour: `certifi==2024.2.2` with one hash fragment, with and without an
environment-marker clause, and cut at a backslash continuation. -/
theorem req_hash_stripped_markers_preserved_witness :
    parse_requirements_txt [String.mk (("certifi".data ++ '=' :: '=' :: "2024.2.2".data) ++
        [("sha256:abc".data)].flatMap hashFrag ++
        (' ' :: ';' :: ' ' :: "python_version < \"3.13\"".data))] =
      .ok [⟨String.mk ("certifi".data), String.mk ("2024.2.2".data),
        some (String.mk ("python_version < \"3.13\"".data))⟩] ∧
    parse_requirements_txt [String.mk (("certifi".data ++ '=' :: '=' :: "2024.2.2".data) ++
        [("sha256:abc".data)].flatMap hashFrag)] =
      .ok [⟨String.mk ("certifi".data), String.mk ("2024.2.2".data), none⟩] ∧
    parse_requirements_txt [String.mk (("certifi".data ++ '=' :: '=' :: "2024.2.2".data) ++
        ' ' :: '\\' :: "   --hash=sha256:abc".data)] =
      .ok [⟨String.mk ("certifi".data), String.mk ("2024.2.2".data), none⟩] :=
  req_hash_stripped_markers_preserved ("certifi".data) ("2024.2.2".data)
    ("python_version < \"3.13\"".data) ("   --hash=sha256:abc".data)
    [("sha256:abc".data)]
    (by decide) (by decide) (by decide) (by decide) (by decide) (by decide)
    (by decide) (by decide) (by decide) (by decide) (by decide) (by decide)
    (by
      intro c hc
      have h2 : some 'p' = some c := hc
      cases Option.some_injective _ h2
      decide)
    (by
      intro c hc
      have h2 : some '\"' = some c := hc
      cases Option.some_injective _ h2
      decide)
    (by decide) (by decide)
